import Mathlib

/-!
# LogAnalyzer.c — a shallow embedding and its verified properties

The program reads a log file line by line (`fgets` into a 256-byte buffer),
scans each line with `sscanf(line, "%s %s %s %f %f", ...)`, folds the accepted
records into a per-user table and three global totals, lets two child
processes divide the totals by the number of entries, and prints a report.

Modelling decisions, all visible in the definitions below:

* text is `List Char`, one `Char` for each byte; the input file is the list of
  its bytes;
* in the state and the report `float` is modelled by `ℚ` with exact arithmetic
  (no rounding, no overflow to infinity); a quotient with divisor zero has no
  value in `ℚ` and is `none`;
* the binary32 arithmetic the source performs on the totals and the averages
  (`f32`, `float_total`, `float_average`) and the two decimals of `%.2f`
  (`print_2dp`) are modelled next to it, and C4 relates the two;
* `int` is `Int`, and a signed overflow of `total_entries++` is a `Fault`;
* the table `users[MAX_USERS]` together with `user_count` is the list of the
  initialised entries, `user_count` being its length; a write at index
  `MAX_USERS` is a `Fault`;
* `%s` into `char timestamp[20]`, `char username[50]`, `char process[50]`
  writes the token and a terminating NUL; a token that does not fit is a
  `Fault`;
* `%f` is modelled for decimal floating-point input; the hexadecimal, infinity
  and NaN forms that `strtod` also accepts have no exact rational model here
  and are reported as the fault `unmodelledFloat`, and so is an exponent marker
  without digits, on which ISO C and common C libraries differ.

* the two children are modelled by the value each leaves in its pipe; `main`
  takes both writes to happen, and `main_env` makes explicit whether a child
  reaches its `write` and what the uninitialised `avg_cpu`, `avg_mem` hold.

A `Fault` stands for behaviour the C standard leaves undefined (or that this
model does not cover); nothing is claimed about a run that faults.
-/

namespace LogAnalyzer

/-! ## Constants and data model -/

/-- Size of the line buffer: `#define MAX_LINE 256`. -/
def MAX_LINE : Nat := 256

/-- Capacity of the user table: `#define MAX_USERS 100`. -/
def MAX_USERS : Nat := 100

/-- Largest value of a C `int` (32 bits). -/
def INT_MAX : Int := 2147483647

/-- Ways in which a run leaves the behaviour this model defines. -/
inductive Fault where
  /-- a `%s` conversion stores more characters than its destination holds -/
  | bufferOverflow
  /-- `users[MAX_USERS]` is written, one past the end of the table -/
  | tableOverflow
  /-- `total_entries++` at `INT_MAX` -/
  | intOverflow
  /-- a `%f` input of hexadecimal, infinity or NaN form, or with an exponent
  marker that no digit follows -/
  | unmodelledFloat
  deriving DecidableEq, Repr

/-- Equality of results is decidable, so that runs on concrete inputs can be evaluated. -/
instance decEqExcept {ε α : Type} [DecidableEq ε] [DecidableEq α] : DecidableEq (Except ε α)
  | .ok a, .ok b =>
    if h : a = b then isTrue (by rw [h]) else isFalse (fun h1 => h (by cases h1; rfl))
  | .error a, .error b =>
    if h : a = b then isTrue (by rw [h]) else isFalse (fun h1 => h (by cases h1; rfl))
  | .ok _, .error _ => isFalse (fun h1 => by cases h1)
  | .error _, .ok _ => isFalse (fun h1 => by cases h1)

/-- One entry of the per-user table: `typedef struct { ... } UserStat;`. -/
structure UserStat where
  username : List Char
  process_count : Int
  total_cpu : ℚ
  deriving DecidableEq, Repr

/-- The five values one successful `sscanf` call assigns. -/
structure LogRecord where
  timestamp : List Char
  username : List Char
  process : List Char
  cpu : ℚ
  mem : ℚ
  deriving DecidableEq, Repr

/-- The variables of `main` that the parse loop updates: the initialised part
of `users[]` (so `user_count` is `users.length`) and the three totals. -/
structure State where
  users : List UserStat
  total_entries : Int
  total_cpu : ℚ
  total_mem : ℚ
  deriving DecidableEq, Repr

/-- The variable `user_count`. -/
def State.user_count (st : State) : Nat := st.users.length

/-- The state before the loop: `user_count = 0`, `total_entries = 0`,
`total_cpu = 0.0`, `total_mem = 0.0`. -/
def State.init : State := ⟨[], 0, 0, 0⟩

/-! ## `find_or_add_user` -/

/-- The search loop `for (i = 0; i < *user_count; i++) if (strcmp(...) == 0) return i;`
started at index `i` on the entries from `i` on: the first index whose
username equals `username`, or `none` when the loop runs to its end. -/
def find_user : List UserStat → List Char → Nat → Option Nat
  | [], _, _ => none
  | u :: us, username, i =>
    if u.username = username then some i else find_user us username (i + 1)

/-- The function `find_or_add_user`: the updated table and the returned index.
When no entry matches, the new entry `(username, 0, 0.0)` is written at index
`user_count`, which lies inside `users[MAX_USERS]` only when
`user_count < MAX_USERS`; the C code makes no such test, and the write is a
fault otherwise. -/
def find_or_add_user (users : List UserStat) (username : List Char) :
    Except Fault (List UserStat × Nat) :=
  match find_user users username 0 with
  | some i => .ok (users, i)
  | none =>
    if users.length < MAX_USERS then
      .ok (users ++ [⟨username, 0, 0⟩], users.length)
    else
      .error .tableOverflow

/-! ## The line parser: `sscanf(line, "%s %s %s %f %f", ...)` -/

/-- The C `isspace` in the "C" locale: space, `\t`, `\n`, `\v`, `\f`, `\r`. -/
def isspace (c : Char) : Bool :=
  c.toNat = 32 || (9 ≤ c.toNat && c.toNat ≤ 13)

/-- The C `isdigit`. -/
def isdigit (c : Char) : Bool :=
  48 ≤ c.toNat && c.toNat ≤ 57

/-- The string a C function sees in a buffer: the characters before the first NUL. -/
def c_string (buf : List Char) : List Char :=
  buf.takeWhile (fun c => c.toNat ≠ 0)

/-- Whitespace-separated tokens of a line, at most `fuel` of them: after the
white space is skipped, the next character starts a token that extends to the
next white space. -/
def tokens_aux : Nat → List Char → List (List Char)
  | 0, _ => []
  | fuel + 1, s =>
    match s.dropWhile isspace with
    | [] => []
    | c :: cs =>
      (c :: cs.takeWhile (fun x => !isspace x)) ::
        tokens_aux fuel (cs.dropWhile (fun x => !isspace x))

/-- Whitespace-separated tokens of a line (every token takes at least one
character, so `s.length` rounds find them all). -/
def tokens (s : List Char) : List (List Char) :=
  tokens_aux s.length s

/-- The conversion `%s` into a `char[cap]` destination: skip white space; at
the end of the input the conversion fails (`none`); otherwise the next
character and the non-white-space characters after it are stored, followed by
a NUL, which needs `length + 1` bytes. -/
def scan_s (cap : Nat) (input : List Char) :
    Except Fault (Option (List Char × List Char)) :=
  match input.dropWhile isspace with
  | [] => .ok none
  | c :: cs =>
    let tok := c :: cs.takeWhile (fun x => !isspace x)
    if tok.length + 1 > cap then .error .bufferOverflow
    else .ok (some (tok, cs.dropWhile (fun x => !isspace x)))

/-- Value of a sequence of decimal digits. -/
def digits_value (ds : List Char) : Nat :=
  ds.foldl (fun acc d => 10 * acc + (d.toNat - 48)) 0

/-- An optional sign: `true` for `-`, and the input after the sign. -/
def scan_sign : List Char → Bool × List Char
  | c :: cs => if c = '-' then (true, cs) else if c = '+' then (false, cs) else (false, c :: cs)
  | [] => (false, [])

/-- The value `m * 10 ^ e` for an integer exponent. -/
def scale10 (m : ℚ) (e : Int) : ℚ :=
  match e with
  | Int.ofNat k => m * 10 ^ k
  | Int.negSucc k => m / 10 ^ (k + 1)

/-- The fraction of a decimal floating-point input, after the integer digits:
the digits after a `.`, if there is one, and the rest of the input. -/
def scan_fraction (s : List Char) : List Char × List Char :=
  match s with
  | d :: ds => if d = '.' then (ds.takeWhile isdigit, ds.dropWhile isdigit) else ([], d :: ds)
  | [] => ([], [])

/-- The exponent part of a decimal floating-point input, after the mantissa:
the exponent (0 when there is none) and the rest of the input. The result is
`none` when an `e` or `E` is followed, after an optional sign, by no digit: ISO C
makes the conversion fail there while common C libraries accept the mantissa,
so the model takes no side. -/
def scan_exponent (s : List Char) : Option (Int × List Char) :=
  match s with
  | c :: cs =>
    if c = 'e' ∨ c = 'E' then
      if (scan_sign cs).2.takeWhile isdigit = [] then none
      else
        some (if (scan_sign cs).1 then -(digits_value ((scan_sign cs).2.takeWhile isdigit) : Int)
              else (digits_value ((scan_sign cs).2.takeWhile isdigit) : Int),
              (scan_sign cs).2.dropWhile isdigit)
    else some (0, c :: cs)
  | [] => some (0, [])

/-- Does the input (after the sign) start an infinity, NaN or hexadecimal form? -/
def special_float (s : List Char) : Bool :=
  match s with
  | a :: b :: c :: _ =>
    ((a = 'i' ∨ a = 'I') ∧ (b = 'n' ∨ b = 'N') ∧ (c = 'f' ∨ c = 'F')) ||
    ((a = 'n' ∨ a = 'N') ∧ (b = 'a' ∨ b = 'A') ∧ (c = 'n' ∨ c = 'N')) ||
    (a = '0' ∧ (b = 'x' ∨ b = 'X'))
  | [a, b] => a = '0' ∧ (b = 'x' ∨ b = 'X')
  | _ => false

/-- The number at the start of an input that does not start with white space:
an optional sign, decimal digits with an optional `.`, and an optional
exponent. The conversion fails (`none`) when there is no digit; otherwise it
yields the value and the rest of the input. Forms outside the model are the
fault `unmodelledFloat`. -/
def scan_number (s : List Char) : Except Fault (Option (ℚ × List Char)) :=
  if special_float (scan_sign s).2 then .error .unmodelledFloat
  else
    let ipart := (scan_sign s).2.takeWhile isdigit
    let frac := scan_fraction ((scan_sign s).2.dropWhile isdigit)
    if ipart = [] ∧ frac.1 = [] then .ok none
    else
      match scan_exponent frac.2 with
      | none => .error .unmodelledFloat
      | some (e, rest) =>
        let v := scale10 (digits_value (ipart ++ frac.1) : ℚ) (e - (frac.1.length : Int))
        .ok (some (if (scan_sign s).1 then -v else v, rest))

/-- The conversion `%f`: skip white space; at the end of the input the
conversion fails; otherwise scan a number. -/
def scan_f (input : List Char) : Except Fault (Option (ℚ × List Char)) :=
  match input.dropWhile isspace with
  | [] => .ok none
  | c :: cs => scan_number (c :: cs)

/-- The conversions `%f %f` at the end of the format, on the input after the
three strings: the record when both succeed. -/
def scan_floats (timestamp username process : List Char) (input : List Char) :
    Except Fault (Option LogRecord) :=
  match scan_f input with
  | .error f => .error f
  | .ok none => .ok none
  | .ok (some (cpu, r4)) =>
    match scan_f r4 with
    | .error f => .error f
    | .ok none => .ok none
    | .ok (some (mem, _)) => .ok (some ⟨timestamp, username, process, cpu, mem⟩)

/-- The call `sscanf(line, "%s %s %s %f %f", timestamp, username, process, &cpu, &mem)`
with `char timestamp[20]`, `char username[50]`, `char process[50]`:
`some record` when it returns 5 (all five conversions succeed), `none` when it
returns anything else. The white space in the format is covered by the white
space every one of the five conversions skips. -/
def sscanf_line (line : List Char) : Except Fault (Option LogRecord) :=
  match scan_s 20 line with
  | .error f => .error f
  | .ok none => .ok none
  | .ok (some (timestamp, r1)) =>
    match scan_s 50 r1 with
    | .error f => .error f
    | .ok none => .ok none
    | .ok (some (username, r2)) =>
      match scan_s 50 r2 with
      | .error f => .error f
      | .ok none => .ok none
      | .ok (some (process, r3)) => scan_floats timestamp username process r3

/-! ## The aggregator: the body of the parse loop -/

/-- Apply `f` to the entry at `index` (no effect when `index` is past the end). -/
def update_at (f : UserStat → UserStat) : List UserStat → Nat → List UserStat
  | [], _ => []
  | u :: us, 0 => f u :: us
  | u :: us, i + 1 => u :: update_at f us i

/-- The two statements `users[index].process_count++; users[index].total_cpu += cpu;`
on one entry. The increment comes after `total_entries++` in the same
iteration, which is where the model places the `int` overflow. -/
def bump (cpu : ℚ) (u : UserStat) : UserStat :=
  { u with process_count := u.process_count + 1, total_cpu := u.total_cpu + cpu }

/-- Lines 78 to 84 of the source: the update for one accepted record. -/
def aggregate (st : State) (r : LogRecord) : Except Fault State :=
  if st.total_entries = INT_MAX then .error .intOverflow
  else
    match find_or_add_user st.users r.username with
    | .error f => .error f
    | .ok (users, index) =>
      .ok { users := update_at (bump r.cpu) users index
            total_entries := st.total_entries + 1
            total_cpu := st.total_cpu + r.cpu
            total_mem := st.total_mem + r.mem }

/-- One iteration of the parse loop on the buffer `line` that `fgets` filled:
`if (sscanf(...) != 5) continue;` and then the update. -/
def process_line (st : State) (line : List Char) : Except Fault State :=
  match sscanf_line (c_string line) with
  | .error f => .error f
  | .ok none => .ok st
  | .ok (some r) => aggregate st r

/-! ## Reading the file: `while (fgets(line, sizeof(line), file))` -/

/-- At most `k` characters of the input, stopping after a newline: what one
`fgets` call stores, and the rest of the file. -/
def fgets_aux : Nat → List Char → List Char × List Char
  | 0, s => ([], s)
  | _ + 1, [] => ([], [])
  | k + 1, c :: s =>
    if c = '\n' then ([c], s)
    else ((c :: (fgets_aux k s).1), (fgets_aux k s).2)

/-- The call `fgets(line, size, file)`: `none` (NULL) at the end of the file,
otherwise the buffer contents (at most `size - 1` characters) and the rest of
the file. -/
def fgets (size : Nat) (file : List Char) : Option (List Char × List Char) :=
  match file with
  | [] => none
  | _ :: _ => some (fgets_aux (size - 1) file)

/-- The successive buffers the loop condition `fgets(line, sizeof(line), file)`
produces, for at most `fuel` iterations. -/
def read_lines : Nat → List Char → List (List Char)
  | 0, _ => []
  | fuel + 1, file =>
    match fgets MAX_LINE file with
    | none => []
    | some (line, rest) => line :: read_lines fuel rest

/-- All buffers `fgets` produces until it returns NULL: every call takes at
least one character, so `file.length` iterations reach the end of the file. -/
def file_lines (file : List Char) : List (List Char) :=
  read_lines file.length file

/-- The loop body folded over the buffers, stopping at the first fault. -/
def parse_loop : List (List Char) → State → Except Fault State
  | [], st => .ok st
  | line :: rest, st =>
    match process_line st line with
    | .error f => .error f
    | .ok st1 => parse_loop rest st1

/-- The parse pass of `main` on a file: lines 55 to 85. -/
def run (file : List Char) : Except Fault State :=
  parse_loop (file_lines file) State.init

/-- The records the parse loop accepts from a list of buffers, in order. -/
def accepted : List (List Char) → List LogRecord
  | [] => []
  | line :: rest =>
    match sscanf_line (c_string line) with
    | .ok (some r) => r :: accepted rest
    | _ => accepted rest

/-- The accepted records of a file, in file order. -/
def records (file : List Char) : List LogRecord :=
  accepted (file_lines file)

/-! ## The workers and the report -/

/-- The quotient `total / total_entries` a child computes (the `int` divisor is
converted to `float`). With divisor zero there is no rational value: IEEE 754
arithmetic yields NaN or an infinity and raises no trap. -/
def average (total : ℚ) (total_entries : Int) : Option ℚ :=
  if total_entries = 0 then none else some (total / (total_entries : ℚ))

/-- What the parent prints: the values behind the report's lines (`none` for
an average that is not a number). -/
structure Report where
  total_entries : Int
  avg_cpu : Option ℚ
  avg_mem : Option ℚ
  user_stats : List UserStat
  deriving DecidableEq, Repr

/-- The exit code of `main` and the report on standard output, if any. -/
structure Outcome where
  exit_code : Int
  report : Option Report
  deriving DecidableEq, Repr

/-- The function `main`, given `argc` and the contents of the file `argv[1]`
(`none` when `fopen` fails). `pipe`, `fork`, `write`, `read` and `wait` are
taken to succeed: each child writes its quotient and the parent reads it. -/
def main (argc : Nat) (file : Option (List Char)) : Except Fault Outcome :=
  if argc ≠ 2 then .ok ⟨1, none⟩
  else
    match file with
    | none => .ok ⟨1, none⟩
    | some contents =>
      match run contents with
      | .error f => .error f
      | .ok st =>
        let avg_cpu := average st.total_cpu st.total_entries
        let avg_mem := average st.total_mem st.total_entries
        .ok ⟨0, some ⟨st.total_entries, avg_cpu, avg_mem, st.users⟩⟩

/-- The scenario of the specification: three records and one garbage line. -/
def scenario : List Char :=
  ("2024-01-01 alice proc1 10.0 100.0\n" ++
   "2024-01-01 bob proc2 20.0 200.0\n" ++
   "2024-01-01 alice proc3 30.0 300.0\n" ++
   "garbage line here\n").toList

/-- A log with a malformed line between records of two users. -/
def sample_mixed : List Char :=
  ("09:00 carol sshd 1.5 2\n" ++
   "broken\n" ++
   "09:01 dave cron 2.5 3\n" ++
   "09:02 carol vim 4 5\n").toList

/-- A log in which usernames reappear after other users were seen. -/
def sample_reappear : List Char :=
  ("t bob p 1 1\n" ++ "t alice p 2 2\n" ++ "t bob p 3 3\n" ++
   "t carol p 4 4\n" ++ "t alice p 5 5\n").toList

/-- A log with two usernames that differ only in the case of a letter. -/
def sample_case : List Char :=
  ("t Alice p 1 1\n" ++ "t alice p 2 2\n" ++ "t Alice p 3 3\n").toList

/-- A list with every occurrence after the first removed. -/
def first_seen : List (List Char) → List (List Char)
  | [] => []
  | x :: xs => x :: (first_seen xs).filter (fun y => y ≠ x)

/-- The records of one user. -/
def records_of (recs : List LogRecord) (u : List Char) : List LogRecord :=
  recs.filter (fun r => r.username = u)

/-- Sum of the `process_count` fields of a table. -/
def process_total (users : List UserStat) : Int :=
  (users.map (fun e => e.process_count)).sum

/-- The usernames of a table, in table order. -/
def usernames (users : List UserStat) : List (List Char) :=
  users.map (fun e => e.username)

/-- What the table and the totals are after the records `recs` have been
consumed: the usernames are those of the records in first-appearance order,
every entry counts and sums the records of its user, and the totals count and
sum all records. -/
def Summarises (st : State) (recs : List LogRecord) : Prop :=
  usernames st.users = first_seen (recs.map (fun r => r.username)) ∧
  (∀ e ∈ st.users,
    e.process_count = ((records_of recs e.username).length : Int) ∧
    e.total_cpu = ((records_of recs e.username).map (fun r => r.cpu)).sum) ∧
  st.total_entries = (recs.length : Int) ∧
  st.total_cpu = (recs.map (fun r => r.cpu)).sum ∧
  st.total_mem = (recs.map (fun r => r.mem)).sum

/-- An input that is empty or starts with white space: what follows a token. -/
def ws_head (r : List Char) : Prop :=
  ∀ c, r.head? = some c → isspace c = true

/-- The result of a `%f` conversion on a token, seen on the input that goes on
with `r` after the token. -/
def extend_rest (res : Except Fault (Option (ℚ × List Char))) (r : List Char) :
    Except Fault (Option (ℚ × List Char)) :=
  match res with
  | .ok (some (v, rest)) => .ok (some (v, rest ++ r))
  | .ok none => .ok none
  | .error f => .error f

/-- Sum of the `total_cpu` fields of a table. -/
def cpu_total (users : List UserStat) : ℚ :=
  (users.map (fun e => e.total_cpu)).sum

/-- A log with a negative cpu field. -/
def sample_negative : List Char :=
  ("t bob p -5 1\n" ++ "t ann p 2 1\n").toList

/-- The lines of a text: every line ends with its newline, except a last line
that the text does not terminate. -/
def text_lines : List Char → List (List Char)
  | [] => []
  | c :: cs =>
    if c = '\n' then [c] :: text_lines cs
    else
      match text_lines cs with
      | [] => [[c]]
      | l :: ls => (c :: l) :: ls

/-- Does the text end with a character that is not a newline? -/
def unterminated : List Char → Bool
  | [] => false
  | [c] => c ≠ '\n'
  | _ :: c :: cs => unterminated (c :: cs)

/-- One line of 267 characters, newline included: a record, blanks up to the
255th character, and a second record. -/
def long_line : List Char :=
  "t alice p 1 1".toList ++ List.replicate 242 ' ' ++ "t bob p 2 2\n".toList

/-- A log whose only line has no newline at its end. -/
def sample_unterminated : List Char :=
  "t bob p 1 1".toList

/-- The call `read(pipe[0], &avg, sizeof(avg))`, whose return value the parent
does not look at: `pipe` is what the child wrote (`none` when the write end
was closed without data, and `read` returns 0), and `avg` is what the variable
held before, which it keeps when nothing is read. -/
def read_avg (pipe : Option (Option ℚ)) (avg : Option ℚ) : Option ℚ :=
  match pipe with
  | some v => v
  | none => avg

/-- The parent after the two forks, lines 133 to 161: two reads, two waits, the
report, `return 0`. The variables `avg_cpu` and `avg_mem` are declared without
an initial value; the arguments give what they happen to hold. -/
def parent (st : State) (cpu_pipe mem_pipe : Option (Option ℚ))
    (avg_cpu avg_mem : Option ℚ) : Outcome :=
  ⟨0, some ⟨st.total_entries, read_avg cpu_pipe avg_cpu, read_avg mem_pipe avg_mem, st.users⟩⟩

/-- What a child leaves in its pipe: its quotient when it reaches its `write`,
nothing when it does not (its `fork` failed, or it was killed before). -/
def child_pipe (writes : Bool) (total : ℚ) (total_entries : Int) : Option (Option ℚ) :=
  if writes then some (average total total_entries) else none

/-- The function `main` with its environment made explicit: whether each child
reaches its `write`, and what the uninitialised `avg_cpu` and `avg_mem` hold. -/
def main_env (argc : Nat) (file : Option (List Char)) (cpu_writes mem_writes : Bool)
    (avg_cpu avg_mem : Option ℚ) : Except Fault Outcome :=
  if argc ≠ 2 then .ok ⟨1, none⟩
  else
    match file with
    | none => .ok ⟨1, none⟩
    | some contents =>
      match run contents with
      | .error f => .error f
      | .ok st =>
        .ok (parent st (child_pipe cpu_writes st.total_cpu st.total_entries)
          (child_pipe mem_writes st.total_mem st.total_entries) avg_cpu avg_mem)

/-- Position of the leading binary digit of `n`, by repeated halving: the `k`
with `2 ^ k ≤ n < 2 ^ (k + 1)` for `n ≠ 0`. -/
def ilog2_aux : Nat → Nat → Nat
  | 0, _ => 0
  | fuel + 1, n => if n ≤ 1 then 0 else ilog2_aux fuel (n / 2) + 1

/-- Position of the leading binary digit of `n` (0 for `n = 0`). -/
def ilog2 (n : Nat) : Nat := ilog2_aux n n

/-- The power of two `2 ^ e` for an integer exponent. -/
def pow2 (e : Int) : ℚ := (2 : ℚ) ^ e

/-- The binary exponent of `q ≠ 0`: the `k` with `2 ^ k ≤ |q| < 2 ^ (k + 1)`. -/
def floor_log2 (q : ℚ) : Int :=
  if |q| < pow2 ((ilog2 q.num.natAbs : Int) - (ilog2 q.den : Int)) then
    (ilog2 q.num.natAbs : Int) - (ilog2 q.den : Int) - 1
  else (ilog2 q.num.natAbs : Int) - (ilog2 q.den : Int)

/-- The integer nearest to `q`, the even one of the two when `q` lies half way
(the default rounding direction of IEEE 754). -/
def round_even (q : ℚ) : Int :=
  if q - ⌊q⌋ < 1 / 2 then ⌊q⌋
  else if 1 / 2 < q - ⌊q⌋ then ⌊q⌋ + 1
  else if ⌊q⌋ % 2 = 0 then ⌊q⌋ else ⌊q⌋ + 1

/-- The exponent of the unit in the last place binary32 has at `q`: 24
significant bits, and no finer than `2 ^ (-149)` (the subnormal numbers). -/
def f32_exponent (q : ℚ) : Int := max (floor_log2 q - 23) (-149)

/-- The multiple of the unit in the last place nearest to `q`. -/
def f32_round (q : ℚ) : ℚ :=
  if q = 0 then 0 else (round_even (q / pow2 (f32_exponent q)) : ℚ) * pow2 (f32_exponent q)

/-- The `float` that the exact value `q` rounds to: `none` when the rounded
value reaches `2 ^ 128`, where binary32 has an infinity. -/
def f32 (q : ℚ) : Option ℚ :=
  if |f32_round q| < pow2 128 then some (f32_round q) else none

/-- The `float` addition of `total_cpu += cpu`; an operand that is not finite
gives an infinity or a NaN. -/
def f32_add (a b : Option ℚ) : Option ℚ :=
  match a, b with
  | some x, some y => f32 (x + y)
  | _, _ => none

/-- The `float` division of `total_cpu / total_entries`; a divisor zero or an
operand that is not finite gives an infinity or a NaN. -/
def f32_div (a b : Option ℚ) : Option ℚ :=
  match a, b with
  | some x, some y => if y = 0 then none else f32 (x / y)
  | _, _ => none

/-- The statement `total_cpu += cpu;` (line 79; `total_mem += mem;` on line 80)
over the fields of the accepted records in file order: `%f` stores each field
as the nearest `float`. -/
def float_sum : Option ℚ → List ℚ → Option ℚ
  | acc, [] => acc
  | acc, c :: cs => float_sum (f32_add acc (f32 c)) cs

/-- The total after the parse loop, from `float total_cpu = 0` (line 59). -/
def float_total (cs : List ℚ) : Option ℚ := float_sum (some 0) cs

/-- The child's `float avg_cpu = total_cpu / total_entries;` (line 107, and
line 123 for the memory): the `int` is converted to `float`, then divided. -/
def float_average (cs : List ℚ) (total_entries : Int) : Option ℚ :=
  f32_div (float_total cs) (f32 (total_entries : ℚ))

/-- The figure `printf("%.2f", avg)` shows for a finite `avg`: the multiple of
0.01 nearest to it (lines 149 and 150). -/
def print_2dp (a : ℚ) : ℚ := (round_even (a * 100) : ℚ) / 100

/-- Unit roundoff of binary32: half the distance from 1 to the next number. -/
def u32 : ℚ := pow2 (-24)

/-- Half the distance between neighbouring subnormal binary32 numbers. -/
def eta32 : ℚ := pow2 (-150)

/-- Sum of the magnitudes of the fields. -/
def abs_sum (cs : List ℚ) : ℚ := (cs.map (fun c => |c|)).sum

/-- Bound on the distance between the binary32 total of `n` fields and their
exact sum: `2 n (1 + u) ^ n (u Σ|c| + η)`. -/
def sum_error (cs : List ℚ) : ℚ :=
  2 * (cs.length : ℚ) * (1 + u32) ^ cs.length * (u32 * abs_sum cs + eta32)

/-- Bound on the relative error of converting the count `n` to `float`: none
below `2 ^ 24`, where every integer is a binary32 number. -/
def count_error (n : Nat) : ℚ := if n < 2 ^ 24 then 0 else 2 * u32

/-- Bound on the distance between the binary32 average of the fields and
their exact average: the error of the total, of the converted divisor and of
the rounded quotient. -/
def average_error (cs : List ℚ) : ℚ :=
  ((u32 + count_error cs.length) / (1 - count_error cs.length) *
      (abs_sum cs + sum_error cs) + sum_error cs) / (cs.length : ℚ) + eta32

/-- The `cpu` fields of the accepted records of a file, in file order. -/
def cpu_fields (file : List Char) : List ℚ :=
  (records file).map (fun r => r.cpu)

/-- The `mem` fields of the accepted records of a file, in file order. -/
def mem_fields (file : List Char) : List ℚ :=
  (records file).map (fun r => r.mem)

/-- A log of three records whose cpu fields are not binary fractions. -/
def sample_tenths : List Char :=
  ("t ann p 0.1 7\n" ++ "t ben p 0.2 8\n" ++ "t ann p 0.3 9\n").toList

/-- A log in which a large cpu field absorbs a small one and is then
cancelled. -/
def sample_cancel : List Char :=
  ("t a p 100000000 1\n" ++ "t a p 1 1\n" ++ "t a p -100000000 1\n").toList

/-- A log with the exact average 1/3. -/
def sample_third : List Char :=
  ("t a p 1 1\n" ++ "t a p 0 1\n" ++ "t a p 0 1\n").toList

/-- A log of two finite `float` fields whose sum is beyond the largest
`float`. -/
def sample_overflow : List Char :=
  ("t a p 3e38 1\n" ++ "t a p 3e38 1\n").toList

/-! ## Lemmas on the table operations -/

theorem find_user_none {us : List UserStat} {name : List Char} {i : Nat}
    (h : find_user us name i = none) : ∀ e ∈ us, e.username ≠ name := by
  induction us generalizing i with
  | nil => intro e he; cases he
  | cons u us ih =>
    unfold find_user at h
    split at h
    · cases h
    · rename_i hne
      intro e he
      rcases List.mem_cons.mp he with rfl | he
      · exact hne
      · exact ih h e he

theorem find_user_some {us : List UserStat} {name : List Char} {i j : Nat}
    (h : find_user us name i = some j) :
    ∃ pre e post, us = pre ++ e :: post ∧ e.username = name ∧
      (∀ x ∈ pre, x.username ≠ name) ∧ j = i + pre.length := by
  induction us generalizing i with
  | nil => cases h
  | cons u us ih =>
    unfold find_user at h
    split at h
    · rename_i heq
      cases h
      exact ⟨[], u, us, rfl, heq, (by intro x hx; cases hx), (by simp)⟩
    · rename_i hne
      obtain ⟨pre, e, post, h1, h2, h3, h4⟩ := ih h
      refine ⟨u :: pre, e, post, by rw [h1]; rfl, h2, ?_, by simp [h4]; omega⟩
      intro x hx
      rcases List.mem_cons.mp hx with rfl | hx
      · exact hne
      · exact h3 x hx

theorem update_at_split (f : UserStat → UserStat) (pre : List UserStat) (e : UserStat)
    (post : List UserStat) : update_at f (pre ++ e :: post) pre.length = pre ++ f e :: post := by
  induction pre with
  | nil => rfl
  | cons p pre ih => simp [update_at, ih]

theorem update_at_snoc (f : UserStat → UserStat) (us : List UserStat) (e : UserStat) :
    update_at f (us ++ [e]) us.length = us ++ [f e] :=
  update_at_split f us e []

/-- The two outcomes of a successful `find_or_add_user`: the index of the first
entry with the username and the table as it was, or (no entry has the
username, and the table has room) the old `user_count` and the table with the
entry `(username, 0, 0.0)` appended. -/
theorem find_or_add_user_ok {users users1 : List UserStat} {name : List Char} {i : Nat}
    (h : find_or_add_user users name = .ok (users1, i)) :
    (∃ pre e post, users = pre ++ e :: post ∧ e.username = name ∧
        (∀ x ∈ pre, x.username ≠ name) ∧ users1 = users ∧ i = pre.length) ∨
    ((∀ x ∈ users, x.username ≠ name) ∧ users.length < MAX_USERS ∧
        users1 = users ++ [⟨name, 0, 0⟩] ∧ i = users.length) := by
  unfold find_or_add_user at h
  split at h
  · rename_i j hfind
    obtain ⟨pre, e, post, h1, h2, h3, h4⟩ := find_user_some hfind
    simp only [Except.ok.injEq, Prod.mk.injEq] at h
    exact Or.inl ⟨pre, e, post, h1, h2, h3, h.1.symm, by omega⟩
  · rename_i hfind
    split at h
    · rename_i hlt
      simp only [Except.ok.injEq, Prod.mk.injEq] at h
      exact Or.inr ⟨find_user_none hfind, hlt, h.1.symm, h.2.symm⟩
    · cases h

/-- The two ways a successful record update changes the table: the first entry
with the record's username is bumped in place, or (no entry has it, and the
table has room) the entry `(username, 1, cpu)` is appended. -/
theorem aggregate_ok {st st1 : State} {r : LogRecord} (h : aggregate st r = .ok st1) :
    st.total_entries ≠ INT_MAX ∧
    st1.total_entries = st.total_entries + 1 ∧
    st1.total_cpu = st.total_cpu + r.cpu ∧
    st1.total_mem = st.total_mem + r.mem ∧
    ((∃ pre e post, st.users = pre ++ e :: post ∧ e.username = r.username ∧
        (∀ x ∈ pre, x.username ≠ r.username) ∧
        st1.users = pre ++ bump r.cpu e :: post) ∨
     ((∀ x ∈ st.users, x.username ≠ r.username) ∧ st.users.length < MAX_USERS ∧
        st1.users = st.users ++ [⟨r.username, 1, r.cpu⟩])) := by
  unfold aggregate at h
  split at h
  · cases h
  · rename_i hmax
    cases hf : find_or_add_user st.users r.username with
    | error f => rw [hf] at h; cases h
    | ok res =>
      obtain ⟨users1, i⟩ := res
      rw [hf] at h
      simp only [Except.ok.injEq] at h
      subst h
      refine ⟨hmax, rfl, rfl, rfl, ?_⟩
      rcases find_or_add_user_ok hf with ⟨pre, e, post, h1, h2, h3, h4, h5⟩ | ⟨h1, h2, h3, h4⟩
      · refine Or.inl ⟨pre, e, post, h1, h2, h3, ?_⟩
        simp only [h4, h5, h1]
        exact update_at_split _ _ _ _
      · refine Or.inr ⟨h1, h2, ?_⟩
        simp only [h3, h4, update_at_snoc, bump]
        simp

/-- A line changes the state only through an accepted record. -/
theorem process_line_ok {st st1 : State} {line : List Char}
    (h : process_line st line = .ok st1) :
    (sscanf_line (c_string line) = .ok none ∧ st1 = st) ∨
    (∃ r, sscanf_line (c_string line) = .ok (some r) ∧ aggregate st r = .ok st1) := by
  unfold process_line at h
  split at h
  · cases h
  · rename_i hs
    simp only [Except.ok.injEq] at h
    exact Or.inl ⟨hs, h.symm⟩
  · rename_i r hs
    exact Or.inr ⟨r, hs, h⟩

/-- Induction principle for the parse loop: a property of the state and of the
records consumed so far that every accepted record preserves holds at the end. -/
theorem parse_loop_induct (P : State → List LogRecord → Prop)
    (hstep : ∀ st st1 recs r, P st recs → aggregate st r = .ok st1 → P st1 (recs ++ [r]))
    (lines : List (List Char)) (st st1 : State) (recs : List LogRecord)
    (h0 : P st recs) (h : parse_loop lines st = .ok st1) :
    P st1 (recs ++ accepted lines) := by
  induction lines generalizing st recs with
  | nil =>
    simp only [parse_loop, Except.ok.injEq] at h
    subst h
    simpa [accepted] using h0
  | cons line rest ih =>
    unfold parse_loop at h
    split at h
    · cases h
    · rename_i st2 hp
      rcases process_line_ok hp with ⟨hs, rfl⟩ | ⟨r, hs, hagg⟩
      · have := ih st2 recs h0 h
        simpa [accepted, hs] using this
      · have := ih st2 (recs ++ [r]) (hstep _ _ _ _ h0 hagg) h
        simpa [accepted, hs] using this

/-- The induction principle on a whole file. -/
theorem run_induct (P : State → List LogRecord → Prop) (h0 : P State.init [])
    (hstep : ∀ st st1 recs r, P st recs → aggregate st r = .ok st1 → P st1 (recs ++ [r]))
    (file : List Char) (st : State) (h : run file = .ok st) : P st (records file) := by
  have := parse_loop_induct P hstep (file_lines file) State.init st [] h0 h
  simpa [records] using this

/-! ## Lemmas on `first_seen` -/

theorem mem_first_seen (l : List (List Char)) (x : List Char) : x ∈ first_seen l ↔ x ∈ l := by
  induction l with
  | nil => simp [first_seen]
  | cons y l ih =>
    simp only [first_seen, List.mem_cons, List.mem_filter, ih, decide_eq_true_eq]
    by_cases hxy : x = y
    · simp [hxy]
    · simp [hxy]

theorem nodup_first_seen (l : List (List Char)) : (first_seen l).Nodup := by
  induction l with
  | nil => simp [first_seen]
  | cons y l ih =>
    simp only [first_seen, List.nodup_cons, List.mem_filter, decide_eq_true_eq]
    exact ⟨fun h => h.2 rfl, ih.filter _⟩

theorem first_seen_snoc (l : List (List Char)) (x : List Char) :
    first_seen (l ++ [x]) = if x ∈ l then first_seen l else first_seen l ++ [x] := by
  induction l with
  | nil => simp [first_seen]
  | cons y l ih =>
    rw [List.cons_append]
    simp only [first_seen]
    rw [ih]
    by_cases hxl : x ∈ l
    · simp [hxl]
    · by_cases hxy : x = y
      · subst hxy
        simp [hxl, List.filter_append]
      · simp [hxl, hxy, List.filter_append]

/-! ## The summary invariant -/

theorem summarises_init : Summarises State.init [] := by
  simp [Summarises, State.init, usernames, first_seen, records_of]

theorem records_of_snoc (recs : List LogRecord) (r : LogRecord) (u : List Char) :
    records_of (recs ++ [r]) u =
      if r.username = u then records_of recs u ++ [r] else records_of recs u := by
  unfold records_of
  by_cases h : r.username = u
  · simp [List.filter_append, h]
  · simp [List.filter_append, h]

theorem summarises_step (st st1 : State) (recs : List LogRecord) (r : LogRecord)
    (hinv : Summarises st recs) (h : aggregate st r = .ok st1) :
    Summarises st1 (recs ++ [r]) := by
  obtain ⟨hnames, hent, hn, hcpu, hmem⟩ := hinv
  obtain ⟨-, h1, h2, h3, hcase⟩ := aggregate_ok h
  have hnd : (usernames st.users).Nodup := hnames ▸ nodup_first_seen _
  have hmem_iff : ∀ u, u ∈ usernames st.users ↔ u ∈ recs.map (fun r => r.username) := by
    intro u; rw [hnames]; exact mem_first_seen _ _
  refine ⟨?_, ?_, ?_, ?_, ?_⟩
  · rcases hcase with ⟨pre, e, post, hu, he, -, hu1⟩ | ⟨hnone, -, hu1⟩
    · have hin : r.username ∈ recs.map (fun r => r.username) := by
        rw [← hmem_iff, hu]; simp [usernames, he]
      rw [List.map_append, List.map_singleton, first_seen_snoc, if_pos hin, ← hnames, hu, hu1]
      simp [usernames, bump]
    · have hnin : r.username ∉ recs.map (fun r => r.username) := by
        rw [← hmem_iff]
        simp only [usernames, List.mem_map, not_exists, not_and]
        exact fun x hx => hnone x hx
      rw [List.map_append, List.map_singleton, first_seen_snoc, if_neg hnin, ← hnames, hu1]
      simp [usernames]
  · intro e1 he1
    rcases hcase with ⟨pre, e, post, hu, he, hpre, hu1⟩ | ⟨hnone, -, hu1⟩
    · rw [hu] at hnd hent
      simp only [usernames, List.map_append, List.map_cons] at hnd
      have hpost : ∀ x ∈ post, x.username ≠ r.username := by
        intro x hx hxe
        have h4 := (List.nodup_cons.mp (List.nodup_append.mp hnd).2.1).1
        apply h4
        rw [he, ← hxe]
        exact List.mem_map_of_mem _ hx
      rw [hu1] at he1
      have hother : ∀ x ∈ pre ++ e :: post, x.username ≠ r.username →
          x.process_count = ((records_of (recs ++ [r]) x.username).length : Int) ∧
          x.total_cpu = ((records_of (recs ++ [r]) x.username).map (fun r => r.cpu)).sum := by
        intro x hx hne
        rw [records_of_snoc, if_neg (Ne.symm hne)]
        exact hent x hx
      rcases List.mem_append.mp he1 with hp | hp
      · exact hother e1 (List.mem_append_left _ hp) (hpre e1 hp)
      · rcases List.mem_cons.mp hp with rfl | hp
        · have := hent e (by simp)
          simp only [bump, records_of_snoc, he, if_true, List.length_append, List.length_singleton,
            List.map_append, List.sum_append, List.map_singleton, List.sum_singleton]
          rw [he] at this
          refine ⟨?_, ?_⟩
          · rw [this.1]; push_cast; ring
          · rw [this.2]
        · exact hother e1 (by simp [hp]) (hpost e1 hp)
    · rw [hu1] at he1
      rcases List.mem_append.mp he1 with hp | hp
      · rw [records_of_snoc, if_neg (Ne.symm (hnone e1 hp))]
        exact hent e1 hp
      · simp only [List.mem_singleton] at hp
        subst hp
        have hempty : records_of recs r.username = [] := by
          unfold records_of
          rw [List.filter_eq_nil_iff]
          intro x hx hxe
          have hin : r.username ∈ usernames st.users := by
            rw [hmem_iff]
            simp only [decide_eq_true_eq] at hxe
            rw [← hxe]
            exact List.mem_map_of_mem _ hx
          simp only [usernames, List.mem_map] at hin
          obtain ⟨y, hy, hye⟩ := hin
          exact hnone y hy hye
        simp [records_of_snoc, hempty]
  · rw [h1, hn]; simp
  · rw [h2, hcpu]; simp
  · rw [h3, hmem]; simp

/-- After the parse pass the state summarises the accepted records of the file. -/
theorem run_summarises (file : List Char) (st : State) (h : run file = .ok st) :
    Summarises st (records file) :=
  run_induct Summarises summarises_init summarises_step file st h

/-! ## Reading the file -/

theorem fgets_aux_append (k : Nat) (s : List Char) :
    (fgets_aux k s).1 ++ (fgets_aux k s).2 = s := by
  induction k generalizing s with
  | zero => simp [fgets_aux]
  | succ k ih =>
    cases s with
    | nil => simp [fgets_aux]
    | cons c s =>
      unfold fgets_aux
      split
      · simp
      · simp [ih s]

theorem fgets_aux_rest_lt (k : Nat) (c : Char) (s : List Char) :
    (fgets_aux (k + 1) (c :: s)).2.length < (c :: s).length := by
  have h := congrArg List.length (fgets_aux_append k s)
  unfold fgets_aux
  split
  · simp
  · simp only [List.length_cons, List.length_append] at h ⊢
    omega

theorem read_lines_flatten (fuel : Nat) (file : List Char) (h : file.length ≤ fuel) :
    (read_lines fuel file).flatten = file := by
  induction fuel generalizing file with
  | zero =>
    have : file = [] := List.length_eq_zero.mp (Nat.le_zero.mp h)
    simp [read_lines, this]
  | succ fuel ih =>
    cases file with
    | nil => simp [read_lines, fgets]
    | cons c s =>
      have hlt : (fgets_aux 255 (c :: s)).2.length < (c :: s).length :=
        fgets_aux_rest_lt 254 c s
      have happ := fgets_aux_append 255 (c :: s)
      have hunf : read_lines (fuel + 1) (c :: s) =
          (fgets_aux 255 (c :: s)).1 :: read_lines fuel (fgets_aux 255 (c :: s)).2 := rfl
      rw [hunf, List.flatten_cons, ih _ (by simp only [List.length_cons] at h hlt; omega)]
      exact happ

/-- The buffers of `file_lines`, put end to end, are the whole file: the
iteration bound `file.length` is never what ends the loop. -/
theorem file_lines_flatten (file : List Char) : (file_lines file).flatten = file :=
  read_lines_flatten file.length file (le_refl _)

/-! ## The report -/

theorem main_ok {file : List Char} {out : Outcome} (h : main 2 (some file) = .ok out) :
    ∃ st, run file = .ok st ∧
      out = ⟨0, some ⟨st.total_entries, average st.total_cpu st.total_entries,
        average st.total_mem st.total_entries, st.users⟩⟩ := by
  unfold main at h
  simp only [ne_eq, not_true_eq_false, if_false] at h
  cases hr : run file with
  | error f => rw [hr] at h; cases h
  | ok st =>
    rw [hr] at h
    simp only [Except.ok.injEq] at h
    exact ⟨st, rfl, h.symm⟩

theorem process_total_step (st st1 : State) (r : LogRecord)
    (hinv : process_total st.users = st.total_entries) (h : aggregate st r = .ok st1) :
    process_total st1.users = st1.total_entries := by
  obtain ⟨-, h1, -, -, hcase⟩ := aggregate_ok h
  rw [h1, ← hinv]
  rcases hcase with ⟨pre, e, post, hu, -, -, hu1⟩ | ⟨-, -, hu1⟩
  · rw [hu, hu1]
    simp only [process_total, bump, List.map_append, List.map_cons, List.sum_append,
      List.sum_cons]
    ring
  · rw [hu1]
    simp [process_total]

/-! ## The claims -/

/-- C1. For every input file on which the parse loop completes (the table
capacity and the other buffers are not exceeded), the sum of `process_count`
over all entries of the per-user table equals `total_entries`, the number the
report prints as Total Entries. -/
theorem C1_process_count_sum (file : List Char) (st : State) (h : run file = .ok st) :
    process_total st.users = st.total_entries ∧
    ∀ out, main 2 (some file) = .ok out →
      ∃ rep, out.report = some rep ∧ process_total rep.user_stats = rep.total_entries := by
  have hsum : process_total st.users = st.total_entries :=
    run_induct (fun s _ => process_total s.users = s.total_entries) rfl
      (fun s s1 _ r hs ha => process_total_step s s1 r hs ha) file st h
  refine ⟨hsum, ?_⟩
  intro out hout
  obtain ⟨st2, hr, rfl⟩ := main_ok hout
  rw [h] at hr
  cases hr
  exact ⟨_, rfl, hsum⟩

/-- C1 at a log with a malformed line: the loop completes and the counts add up. -/
theorem C1_process_count_sum_witness :
    run sample_mixed = .ok ⟨[⟨"carol".toList, 2, 11 / 2⟩, ⟨"dave".toList, 1, 5 / 2⟩], 3, 8, 10⟩ ∧
    process_total [⟨"carol".toList, 2, 11 / 2⟩, ⟨"dave".toList, 1, 5 / 2⟩] = 3 :=
  ⟨by decide!,
    (C1_process_count_sum sample_mixed
      ⟨[⟨"carol".toList, 2, 11 / 2⟩, ⟨"dave".toList, 1, 5 / 2⟩], 3, 8, 10⟩ (by decide!)).1⟩

/-- C2. For every input file on which the parse loop completes and every entry
of the final per-user table, the entry's `process_count` is the number of
accepted records with exactly the entry's username and its `total_cpu` is the
sum of the `cpu` fields of those records. -/
theorem C2_per_user_totals (file : List Char) (st : State) (h : run file = .ok st) :
    ∀ e ∈ st.users,
      e.process_count = ((records_of (records file) e.username).length : Int) ∧
      e.total_cpu = ((records_of (records file) e.username).map (fun r => r.cpu)).sum :=
  (run_summarises file st h).2.1

/-- C2 at the scenario of the specification: Total Entries 3, averages 20 and
200, alice with 2 processes and CPU total 40, bob with 1 process and CPU
total 20. -/
theorem C2_per_user_totals_witness :
    main 2 (some scenario) =
      .ok ⟨0, some ⟨3, some 20, some 200,
        [⟨"alice".toList, 2, 40⟩, ⟨"bob".toList, 1, 20⟩]⟩⟩ ∧
    run scenario = .ok ⟨[⟨"alice".toList, 2, 40⟩, ⟨"bob".toList, 1, 20⟩], 3, 60, 600⟩ ∧
    ∀ e ∈ [(⟨"alice".toList, 2, 40⟩ : UserStat), ⟨"bob".toList, 1, 20⟩],
      e.process_count = ((records_of (records scenario) e.username).length : Int) ∧
      e.total_cpu = ((records_of (records scenario) e.username).map (fun r => r.cpu)).sum :=
  ⟨by decide!, by decide!,
    C2_per_user_totals scenario
      ⟨[⟨"alice".toList, 2, 40⟩, ⟨"bob".toList, 1, 20⟩], 3, 60, 600⟩ (by decide!)⟩

/-- C3. For every input file on which the program completes, the usernames of
the per-user table, in the order the report prints them, are the usernames of
the accepted records with every occurrence after the first removed. -/
theorem C3_first_appearance_order (file : List Char) (out : Outcome)
    (h : main 2 (some file) = .ok out) :
    ∃ rep, out.report = some rep ∧
      usernames rep.user_stats = first_seen ((records file).map (fun r => r.username)) := by
  obtain ⟨st, hr, rfl⟩ := main_ok h
  exact ⟨_, rfl, (run_summarises file st hr).1⟩

/-- C3 at a log where bob and alice reappear after later users. -/
theorem C3_first_appearance_order_witness :
    main 2 (some sample_reappear) =
      .ok ⟨0, some ⟨5, some 3, some 3,
        [⟨"bob".toList, 2, 4⟩, ⟨"alice".toList, 2, 7⟩, ⟨"carol".toList, 1, 4⟩]⟩⟩ ∧
    ∃ rep, (Outcome.mk 0 (some ⟨5, some 3, some 3,
        [⟨"bob".toList, 2, 4⟩, ⟨"alice".toList, 2, 7⟩, ⟨"carol".toList, 1, 4⟩]⟩)).report
          = some rep ∧
      usernames rep.user_stats =
        first_seen ((records sample_reappear).map (fun r => r.username)) :=
  ⟨by decide!, C3_first_appearance_order sample_reappear _ (by decide!)⟩

/-! ## The binary32 arithmetic: rounding errors -/

theorem ilog2_aux_spec (fuel n : Nat) (hn : n ≠ 0) (hf : n ≤ fuel) :
    2 ^ ilog2_aux fuel n ≤ n ∧ n < 2 ^ (ilog2_aux fuel n + 1) := by
  induction fuel generalizing n with
  | zero => omega
  | succ fuel ih =>
    unfold ilog2_aux
    split
    · have : n = 1 := by omega
      subst this
      simp
    · rename_i hgt
      have h2 := ih (n / 2) (by omega) (by omega)
      obtain ⟨ha, hb⟩ := h2
      have e1 : 2 ^ (ilog2_aux fuel (n / 2) + 1) = 2 * 2 ^ ilog2_aux fuel (n / 2) := by ring
      have e2 : 2 ^ (ilog2_aux fuel (n / 2) + 1 + 1) = 4 * 2 ^ ilog2_aux fuel (n / 2) := by ring
      rw [e1] at hb
      rw [e1, e2]
      omega

theorem ilog2_spec (n : Nat) (hn : n ≠ 0) : 2 ^ ilog2 n ≤ n ∧ n < 2 ^ (ilog2 n + 1) :=
  ilog2_aux_spec n n hn (le_refl _)

theorem pow2_pos (e : Int) : 0 < pow2 e := by
  unfold pow2
  positivity

theorem pow2_add (a b : Int) : pow2 (a + b) = pow2 a * pow2 b := by
  unfold pow2
  exact zpow_add₀ (by norm_num) a b

theorem pow2_le {a b : Int} (h : a ≤ b) : pow2 a ≤ pow2 b := by
  unfold pow2
  exact zpow_le_zpow_right₀ (by norm_num) h

theorem pow2_natCast (n : Nat) : pow2 (n : Int) = (2 : ℚ) ^ n := by
  unfold pow2
  exact zpow_natCast 2 n

theorem abs_eq_natAbs_div (q : ℚ) : |q| = (q.num.natAbs : ℚ) / (q.den : ℚ) := by
  have h := Rat.num_div_den q
  have hd : (0 : ℚ) < q.den := by exact_mod_cast q.den_pos
  conv_lhs => rw [← h]
  rw [abs_div, abs_of_pos hd, Nat.cast_natAbs]
  push_cast
  rfl

/-- The power of two at `floor_log2 q` is at most `|q|`. -/
theorem floor_log2_le (q : ℚ) (hq : q ≠ 0) : pow2 (floor_log2 q) ≤ |q| := by
  unfold floor_log2
  split
  · have hn : q.num.natAbs ≠ 0 := by
      simpa using (Rat.num_ne_zero.mpr hq)
    have hd : q.den ≠ 0 := q.den_nz
    obtain ⟨ha, -⟩ := ilog2_spec q.num.natAbs hn
    obtain ⟨-, hb⟩ := ilog2_spec q.den hd
    rw [abs_eq_natAbs_div]
    have hdpos : (0 : ℚ) < q.den := by exact_mod_cast q.den_pos
    have e : pow2 ((ilog2 q.num.natAbs : Int) - (ilog2 q.den : Int) - 1) =
        (2 : ℚ) ^ ilog2 q.num.natAbs / (2 : ℚ) ^ (ilog2 q.den + 1) := by
      have : (ilog2 q.num.natAbs : Int) - (ilog2 q.den : Int) - 1 =
          (ilog2 q.num.natAbs : Int) - ((ilog2 q.den + 1 : Nat) : Int) := by push_cast; ring
      rw [this]
      unfold pow2
      rw [zpow_sub₀ (by norm_num), zpow_natCast, zpow_natCast]
    rw [e]
    have ha' : (2 : ℚ) ^ ilog2 q.num.natAbs ≤ (q.num.natAbs : ℚ) := by exact_mod_cast ha
    have hb' : (q.den : ℚ) ≤ (2 : ℚ) ^ (ilog2 q.den + 1) := by exact_mod_cast hb.le
    exact div_le_div₀ (by positivity) ha' hdpos hb'
  · rename_i h
    exact not_lt.mp h

theorem round_even_err (z : ℚ) : |(round_even z : ℚ) - z| ≤ 1 / 2 := by
  have h1 := Int.floor_le z
  have h2 := Int.lt_floor_add_one z
  unfold round_even
  rw [abs_le]
  split
  · constructor <;> linarith
  · split
    · push_cast
      constructor <;> linarith
    · split
      · constructor <;> linarith
      · push_cast
        constructor <;> linarith

theorem f32_round_err (x : ℚ) : |f32_round x - x| ≤ u32 * |x| + eta32 := by
  have hu : 0 ≤ u32 * |x| := mul_nonneg (pow2_pos _).le (abs_nonneg _)
  have he : 0 ≤ eta32 := (pow2_pos _).le
  unfold f32_round
  split
  · rename_i h0
    subst h0
    simp only [sub_self, abs_zero]
    linarith
  · rename_i hx
    have hp := pow2_pos (f32_exponent x)
    have herr := round_even_err (x / pow2 (f32_exponent x))
    have key : |(round_even (x / pow2 (f32_exponent x)) : ℚ) * pow2 (f32_exponent x) - x| ≤
        pow2 (f32_exponent x) / 2 := by
      have : (round_even (x / pow2 (f32_exponent x)) : ℚ) * pow2 (f32_exponent x) - x =
          ((round_even (x / pow2 (f32_exponent x)) : ℚ) - x / pow2 (f32_exponent x)) *
            pow2 (f32_exponent x) := by
        field_simp
      rw [this, abs_mul, abs_of_pos hp]
      calc |(round_even (x / pow2 (f32_exponent x)) : ℚ) - x / pow2 (f32_exponent x)| *
            pow2 (f32_exponent x) ≤ 1 / 2 * pow2 (f32_exponent x) :=
            mul_le_mul_of_nonneg_right herr hp.le
        _ = pow2 (f32_exponent x) / 2 := by ring
    refine le_trans key ?_
    unfold f32_exponent
    rcases le_total (floor_log2 x - 23) (-149) with hle | hle
    · rw [max_eq_right hle]
      have : pow2 (-149) / 2 = eta32 := by
        unfold eta32 pow2
        norm_num
      rw [this]
      linarith
    · rw [max_eq_left hle]
      have hk := floor_log2_le x hx
      have : pow2 (floor_log2 x - 23) / 2 = u32 * pow2 (floor_log2 x) := by
        have e1 : floor_log2 x - 23 = floor_log2 x + (-23) := by ring
        rw [e1, pow2_add]
        unfold u32 pow2
        norm_num
        ring
      rw [this]
      have := mul_le_mul_of_nonneg_left hk (pow2_pos (-24)).le
      unfold u32
      linarith


theorem u32_nonneg : 0 ≤ u32 := (pow2_pos _).le

theorem eta32_nonneg : 0 ≤ eta32 := (pow2_pos _).le

theorem f32_some {x : ℚ} (h : |x| ≤ pow2 127) : f32 x = some (f32_round x) := by
  have herr := f32_round_err x
  have h1 : |f32_round x| ≤ |f32_round x - x| + |x| := by
    have := abs_add (f32_round x - x) x
    simpa using this
  have hlt : |f32_round x| < pow2 128 := by
    have e1 : u32 * |x| ≤ u32 * pow2 127 := mul_le_mul_of_nonneg_left h u32_nonneg
    have e2 : u32 * pow2 127 + eta32 + pow2 127 < pow2 128 := by
      unfold u32 eta32 pow2
      norm_num
    linarith
  unfold f32
  rw [if_pos hlt]

theorem round_even_int (m : Int) : round_even (m : ℚ) = m := by
  unfold round_even
  simp

theorem floor_log2_lt {q : ℚ} (hq : q ≠ 0) {k : Int} (h : |q| < pow2 k) : floor_log2 q < k := by
  by_contra hcon
  have := pow2_le (not_lt.mp hcon)
  have := floor_log2_le q hq
  linarith

/-- A natural number below 2^24 is a binary32 number. -/
theorem f32_round_nat (n : Nat) (hn : n < 2 ^ 24) : f32_round (n : ℚ) = n := by
  unfold f32_round
  split
  · rename_i h0
    rw [h0]
  · rename_i hx
    have habs : |(n : ℚ)| < pow2 24 := by
      rw [abs_of_nonneg (by positivity)]
      have : pow2 24 = ((2 ^ 24 : Nat) : ℚ) := by
        unfold pow2
        norm_num
      rw [this]
      exact_mod_cast hn
    have hk := floor_log2_lt hx habs
    have hle : f32_exponent (n : ℚ) ≤ 0 := by
      unfold f32_exponent
      exact max_le (by omega) (by norm_num)
    obtain ⟨j, hj⟩ : ∃ j : Nat, f32_exponent (n : ℚ) = -(j : Int) :=
      ⟨(-f32_exponent (n : ℚ)).toNat, by omega⟩
    rw [hj]
    have hp : pow2 (-(j : Int)) = ((2 : ℚ) ^ j)⁻¹ := by
      unfold pow2
      rw [zpow_neg, zpow_natCast]
    rw [hp]
    have hz : (n : ℚ) / ((2 : ℚ) ^ j)⁻¹ = (((n : Int) * 2 ^ j : Int) : ℚ) := by
      push_cast
      field_simp
    rw [hz, round_even_int]
    push_cast
    field_simp

theorem float_sum_none (cs : List ℚ) : float_sum none cs = none := by
  induction cs with
  | nil => rfl
  | cons c cs ih => simpa [float_sum, f32_add] using ih

theorem abs_sum_nonneg (cs : List ℚ) : 0 ≤ abs_sum cs := by
  unfold abs_sum
  apply List.sum_nonneg
  intro x hx
  simp only [List.mem_map] at hx
  obtain ⟨c, -, rfl⟩ := hx
  exact abs_nonneg c

theorem abs_sum_cons (c : ℚ) (cs : List ℚ) : abs_sum (c :: cs) = |c| + abs_sum cs := by
  simp [abs_sum]

theorem abs_list_sum_le (cs : List ℚ) : |cs.sum| ≤ abs_sum cs := by
  induction cs with
  | nil => simp [abs_sum]
  | cons c cs ih =>
    rw [List.sum_cons, abs_sum_cons]
    exact le_trans (abs_add c cs.sum) (by linarith)

/-- The running binary32 sum: it stays finite and within the stated distance of
the exact sum, as long as the magnitudes stay below `2 ^ 126`. -/
theorem float_sum_err (cs : List ℚ) :
    ∀ (s S A E : ℚ), |s - S| ≤ E → |S| ≤ A →
      A + abs_sum cs + ((1 + u32) ^ cs.length * E +
        2 * (cs.length : ℚ) * (1 + u32) ^ cs.length * (u32 * (A + abs_sum cs) + eta32)) ≤
        pow2 126 →
      ∃ t, float_sum (some s) cs = some t ∧
        |t - (S + cs.sum)| ≤ (1 + u32) ^ cs.length * E +
          2 * (cs.length : ℚ) * (1 + u32) ^ cs.length * (u32 * (A + abs_sum cs) + eta32) := by
  have hu := u32_nonneg
  have he := eta32_nonneg
  induction cs with
  | nil =>
    intro s S A E hs _ _
    exact ⟨s, rfl, by simpa using hs⟩
  | cons c cs ih =>
    intro s S A E hs hS hM
    have hE : 0 ≤ E := le_trans (abs_nonneg _) hs
    have hA : 0 ≤ A := le_trans (abs_nonneg _) hS
    have hT := abs_sum_nonneg cs
    have hc := abs_nonneg c
    rw [abs_sum_cons] at hM ⊢
    simp only [List.length_cons, Nat.cast_add, Nat.cast_one, pow_succ] at hM ⊢
    generalize hP : (1 + u32) ^ cs.length = P at hM ih ⊢
    have hP1 : 1 ≤ P := by
      rw [← hP]
      exact one_le_pow₀ (by linarith)
    generalize hm : (cs.length : ℚ) = m at hM ih ⊢
    have hm0 : 0 ≤ m := by rw [← hm]; positivity
    generalize hT' : abs_sum cs = T at hM ih hT ⊢
    generalize hc' : |c| = ac at hM hc ⊢
    have hW : 0 ≤ u32 * (A + (ac + T)) + eta32 := by positivity
    have hP0 : 0 ≤ P - 1 := by linarith
    have q1 : 0 ≤ (P - 1) * E := mul_nonneg hP0 hE
    have q2 : 0 ≤ (P - 1) * (u32 * (A + (ac + T)) + eta32) := mul_nonneg hP0 hW
    have p4 : 0 ≤ m * (P * (u32 * (A + (ac + T)) + eta32)) := by positivity
    have p5 : 0 ≤ P * u32 * E := by positivity
    have p6 : 0 ≤ u32 * (P * (u32 * (A + (ac + T)) + eta32)) := by positivity
    have p7 : 0 ≤ m * (u32 * (P * (u32 * (A + (ac + T)) + eta32))) := by positivity
    have p8 : 0 ≤ P * (u32 * T) := by positivity
    have p9 : 0 ≤ u32 * (P * (u32 * T)) := by positivity
    have q3 : 0 ≤ u32 * ac := by positivity
    have q4 : 0 ≤ u32 * T := by positivity
    have q5 : 0 ≤ u32 * A := by positivity
    have q7 : 0 ≤ u32 * (u32 * ac) := by positivity
    have q8 : 0 ≤ u32 * eta32 := by positivity
    have q9 : 0 ≤ u32 * (u32 * A) := by positivity
    have h126 : pow2 126 ≤ pow2 127 := pow2_le (by norm_num)
    -- the bound of this step is within the bound of the whole list
    have hkey : P * ((1 + u32) * E + 2 * (1 + u32) * (u32 * (A + ac) + eta32)) +
        2 * m * P * (u32 * (A + ac + T) + eta32) ≤
        P * (1 + u32) * E +
          2 * (m + 1) * (P * (1 + u32)) * (u32 * (A + (ac + T)) + eta32) := by
      have e : P * (1 + u32) * E +
          2 * (m + 1) * (P * (1 + u32)) * (u32 * (A + (ac + T)) + eta32) -
          (P * ((1 + u32) * E + 2 * (1 + u32) * (u32 * (A + ac) + eta32)) +
            2 * m * P * (u32 * (A + ac + T) + eta32)) =
          2 * (P * (u32 * T)) + 2 * (u32 * (P * (u32 * T))) +
            2 * (m * (u32 * (P * (u32 * (A + (ac + T)) + eta32)))) := by ring
      linarith
    -- everything that is rounded below stays under the bound of the whole list
    have hsmall : A + ac + E + u32 * ac + eta32 ≤
        A + (ac + T) + (P * (1 + u32) * E +
          2 * (m + 1) * (P * (1 + u32)) * (u32 * (A + (ac + T)) + eta32)) := by
      have e : A + (ac + T) + (P * (1 + u32) * E +
          2 * (m + 1) * (P * (1 + u32)) * (u32 * (A + (ac + T)) + eta32)) -
          (A + ac + E + u32 * ac + eta32) =
          T + (P - 1) * E + P * u32 * E +
            2 * (m * (P * (u32 * (A + (ac + T)) + eta32))) +
            2 * (m * (u32 * (P * (u32 * (A + (ac + T)) + eta32)))) +
            2 * (u32 * (P * (u32 * (A + (ac + T)) + eta32))) +
            2 * ((P - 1) * (u32 * (A + (ac + T)) + eta32)) +
            (u32 * (A + (ac + T)) + eta32) + u32 * A + u32 * T := by ring
      linarith
    -- the field converted
    have hc127 : |c| ≤ pow2 127 := by
      rw [hc']
      linarith
    have hfc := f32_some hc127
    have hcerr := f32_round_err c
    rw [hc'] at hcerr
    -- the addition
    have hx : |s + f32_round c| ≤ A + ac + E + u32 * ac + eta32 := by
      have e1 : s + f32_round c = (S + c) + (s - S) + (f32_round c - c) := by ring
      rw [e1]
      have t1 := abs_add ((S + c) + (s - S)) (f32_round c - c)
      have t2 := abs_add (S + c) (s - S)
      have t3 := abs_add S c
      rw [hc'] at t3
      linarith
    have hx127 : |s + f32_round c| ≤ pow2 127 := by linarith
    have hfx := f32_some hx127
    have hxerr := f32_round_err (s + f32_round c)
    have hstep : float_sum (some s) (c :: cs) =
        float_sum (some (f32_round (s + f32_round c))) cs := by
      simp only [float_sum, hfc, f32_add, hfx]
    have hS' : |S + c| ≤ A + ac := by
      have t3 := abs_add S c
      rw [hc'] at t3
      linarith
    have hs' : |f32_round (s + f32_round c) - (S + c)| ≤
        (1 + u32) * E + 2 * (1 + u32) * (u32 * (A + ac) + eta32) := by
      have e1 : f32_round (s + f32_round c) - (S + c) =
          (f32_round (s + f32_round c) - (s + f32_round c)) + (s - S) + (f32_round c - c) := by
        ring
      rw [e1]
      have t1 := abs_add ((f32_round (s + f32_round c) - (s + f32_round c)) + (s - S))
        (f32_round c - c)
      have t2 := abs_add (f32_round (s + f32_round c) - (s + f32_round c)) (s - S)
      have t4 : u32 * |s + f32_round c| ≤ u32 * (A + ac + E + u32 * ac + eta32) :=
        mul_le_mul_of_nonneg_left hx hu
      have e2 : (1 + u32) * E + 2 * (1 + u32) * (u32 * (A + ac) + eta32) -
          (u32 * (A + ac + E + u32 * ac + eta32) + eta32 + E + (u32 * ac + eta32)) =
          u32 * A + 2 * (u32 * (u32 * A)) + u32 * (u32 * ac) + u32 * eta32 := by ring
      linarith
    have hM' : A + ac + T + (P * ((1 + u32) * E + 2 * (1 + u32) * (u32 * (A + ac) + eta32)) +
        2 * m * P * (u32 * (A + ac + T) + eta32)) ≤ pow2 126 := by
      linarith
    obtain ⟨t, ht, hterr⟩ := ih (f32_round (s + f32_round c)) (S + c) (A + ac)
      ((1 + u32) * E + 2 * (1 + u32) * (u32 * (A + ac) + eta32)) hs' hS' hM'
    refine ⟨t, by rw [hstep, ht], ?_⟩
    rw [List.sum_cons]
    have e2 : S + (c + cs.sum) = S + c + cs.sum := by ring
    rw [e2]
    exact le_trans hterr hkey

theorem print_2dp_err (a : ℚ) : |print_2dp a - a| ≤ 1 / 200 := by
  have h := round_even_err (a * 100)
  unfold print_2dp
  have e : (round_even (a * 100) : ℚ) / 100 - a = ((round_even (a * 100) : ℚ) - a * 100) / 100 := by
    ring
  rw [e, abs_div, abs_of_pos (by norm_num : (0 : ℚ) < 100)]
  rw [div_le_iff₀ (by norm_num)]
  linarith

theorem floor_log2_lt_succ (q : ℚ) (hq : q ≠ 0) : |q| < pow2 (floor_log2 q + 1) := by
  unfold floor_log2
  split
  · rename_i h
    simpa using h
  · have hn : q.num.natAbs ≠ 0 := by
      simpa using (Rat.num_ne_zero.mpr hq)
    have hd : q.den ≠ 0 := q.den_nz
    obtain ⟨-, ha⟩ := ilog2_spec q.num.natAbs hn
    obtain ⟨hb, -⟩ := ilog2_spec q.den hd
    rw [abs_eq_natAbs_div]
    have hdpos : (0 : ℚ) < q.den := by exact_mod_cast q.den_pos
    have e : pow2 ((ilog2 q.num.natAbs : Int) - (ilog2 q.den : Int) + 1) =
        (2 : ℚ) ^ (ilog2 q.num.natAbs + 1) / (2 : ℚ) ^ ilog2 q.den := by
      have : (ilog2 q.num.natAbs : Int) - (ilog2 q.den : Int) + 1 =
          ((ilog2 q.num.natAbs + 1 : Nat) : Int) - (ilog2 q.den : Int) := by push_cast; ring
      rw [this]
      unfold pow2
      rw [zpow_sub₀ (by norm_num), zpow_natCast, zpow_natCast]
    rw [e]
    have ha' : (q.num.natAbs : ℚ) < (2 : ℚ) ^ (ilog2 q.num.natAbs + 1) := by exact_mod_cast ha
    have hb' : (2 : ℚ) ^ ilog2 q.den ≤ (q.den : ℚ) := by exact_mod_cast hb
    have h2pos : (0 : ℚ) < (2 : ℚ) ^ ilog2 q.den := by positivity
    calc (q.num.natAbs : ℚ) / (q.den : ℚ)
        ≤ (q.num.natAbs : ℚ) / (2 : ℚ) ^ ilog2 q.den :=
          div_le_div_of_nonneg_left (by positivity) h2pos hb'
      _ < (2 : ℚ) ^ (ilog2 q.num.natAbs + 1) / (2 : ℚ) ^ ilog2 q.den :=
          div_lt_div_of_pos_right ha' h2pos

theorem f32_eq_some {x y : ℚ} (h : f32 x = some y) : y = f32_round x := by
  unfold f32 at h
  split at h
  · simp only [Option.some.injEq] at h
    exact h.symm
  · cases h

/-- The rounding at known binary32 values: 0.1 becomes 13421773 / 2 ^ 27; the
integer 2 ^ 24 + 1 lies half way and goes to the even neighbour 2 ^ 24; the
largest `float` is kept, and the value half a unit above it overflows; half the
smallest subnormal number goes to 0, and one and a half times it to twice it. -/
theorem f32_examples :
    f32 (1 / 10) = some (13421773 / 134217728) ∧
    f32 16777217 = some 16777216 ∧
    f32 (-16777219) = some (-16777220) ∧
    f32 ((2 ^ 24 - 1) * 2 ^ 104) = some ((2 ^ 24 - 1) * 2 ^ 104) ∧
    f32 ((2 ^ 24 - 1) * 2 ^ 104 + 2 ^ 103) = none ∧
    f32 (1 / 2 ^ 150) = some 0 ∧
    f32 (3 / 2 ^ 150) = some (1 / 2 ^ 148) ∧
    f32_add (some 100000000) (f32 1) = some 100000000 := by
  decide!

/-- Any finite binary32 running sum is within the stated distance of the exact
sum. -/
theorem float_sum_bound (cs : List ℚ) :
    ∀ (s S A E t : ℚ), |s - S| ≤ E → |S| ≤ A → float_sum (some s) cs = some t →
      |t - (S + cs.sum)| ≤ (1 + u32) ^ cs.length * E +
        2 * (cs.length : ℚ) * (1 + u32) ^ cs.length * (u32 * (A + abs_sum cs) + eta32) := by
  have hu := u32_nonneg
  have he := eta32_nonneg
  induction cs with
  | nil =>
    intro s S A E t hs _ ht
    simp only [float_sum, Option.some.injEq] at ht
    subst ht
    simpa using hs
  | cons c cs ih =>
    intro s S A E t hs hS ht
    have hE : 0 ≤ E := le_trans (abs_nonneg _) hs
    have hA : 0 ≤ A := le_trans (abs_nonneg _) hS
    have hT := abs_sum_nonneg cs
    have hc := abs_nonneg c
    simp only [float_sum] at ht
    cases hfc : f32 c with
    | none =>
      rw [hfc] at ht
      simp only [f32_add] at ht
      rw [float_sum_none] at ht
      cases ht
    | some y =>
      have hy := f32_eq_some hfc
      subst hy
      rw [hfc] at ht
      simp only [f32_add] at ht
      cases hfx : f32 (s + f32_round c) with
      | none =>
        rw [hfx, float_sum_none] at ht
        cases ht
      | some z =>
        have hz := f32_eq_some hfx
        subst hz
        rw [hfx] at ht
        rw [abs_sum_cons]
        simp only [List.length_cons, Nat.cast_add, Nat.cast_one, pow_succ]
        have hcerr := f32_round_err c
        have hxerr := f32_round_err (s + f32_round c)
        have hx : |s + f32_round c| ≤ A + |c| + E + u32 * |c| + eta32 := by
          have e1 : s + f32_round c = (S + c) + (s - S) + (f32_round c - c) := by ring
          rw [e1]
          have t1 := abs_add ((S + c) + (s - S)) (f32_round c - c)
          have t2 := abs_add (S + c) (s - S)
          have t3 := abs_add S c
          linarith
        have hS' : |S + c| ≤ A + |c| := by
          have t3 := abs_add S c
          linarith
        have q5 : 0 ≤ u32 * A := by positivity
        have q7 : 0 ≤ u32 * (u32 * |c|) := by positivity
        have q8 : 0 ≤ u32 * eta32 := by positivity
        have q9 : 0 ≤ u32 * (u32 * A) := by positivity
        have hs' : |f32_round (s + f32_round c) - (S + c)| ≤
            (1 + u32) * E + 2 * (1 + u32) * (u32 * (A + |c|) + eta32) := by
          have e1 : f32_round (s + f32_round c) - (S + c) =
              (f32_round (s + f32_round c) - (s + f32_round c)) + (s - S) +
                (f32_round c - c) := by
            ring
          rw [e1]
          have t1 := abs_add ((f32_round (s + f32_round c) - (s + f32_round c)) + (s - S))
            (f32_round c - c)
          have t2 := abs_add (f32_round (s + f32_round c) - (s + f32_round c)) (s - S)
          have t4 : u32 * |s + f32_round c| ≤ u32 * (A + |c| + E + u32 * |c| + eta32) :=
            mul_le_mul_of_nonneg_left hx hu
          have e2 : (1 + u32) * E + 2 * (1 + u32) * (u32 * (A + |c|) + eta32) -
              (u32 * (A + |c| + E + u32 * |c| + eta32) + eta32 + E + (u32 * |c| + eta32)) =
              u32 * A + 2 * (u32 * (u32 * A)) + u32 * (u32 * |c|) + u32 * eta32 := by ring
          linarith
        have hterr := ih (f32_round (s + f32_round c)) (S + c) (A + |c|)
          ((1 + u32) * E + 2 * (1 + u32) * (u32 * (A + |c|) + eta32)) t hs' hS' ht
        rw [List.sum_cons]
        have e2 : S + (c + cs.sum) = S + c + cs.sum := by ring
        rw [e2]
        refine le_trans hterr ?_
        generalize hP : (1 + u32) ^ cs.length = P
        have hP1 : 1 ≤ P := by
          rw [← hP]
          exact one_le_pow₀ (by linarith)
        generalize hm : (cs.length : ℚ) = m
        have hm0 : 0 ≤ m := by rw [← hm]; positivity
        generalize hT' : abs_sum cs = T at hT
        generalize hc' : |c| = ac at hc
        have p8 : 0 ≤ P * (u32 * T) := by positivity
        have p9 : 0 ≤ u32 * (P * (u32 * T)) := by positivity
        have p7 : 0 ≤ m * (u32 * (P * (u32 * (A + (ac + T)) + eta32))) := by positivity
        have e : P * (1 + u32) * E +
            2 * (m + 1) * (P * (1 + u32)) * (u32 * (A + (ac + T)) + eta32) -
            (P * ((1 + u32) * E + 2 * (1 + u32) * (u32 * (A + ac) + eta32)) +
              2 * m * P * (u32 * (A + ac + T) + eta32)) =
            2 * (P * (u32 * T)) + 2 * (u32 * (P * (u32 * T))) +
              2 * (m * (u32 * (P * (u32 * (A + (ac + T)) + eta32)))) := by ring
        linarith

theorem count_error_bounds (n : Nat) : 0 ≤ count_error n ∧ count_error n ≤ 1 / 2 := by
  unfold count_error u32 pow2
  split <;> norm_num

/-- Converting a positive count to `float` changes it by at most the fraction
`count_error` of it. -/
theorem f32_round_count (n : Nat) (hn : 0 < n) :
    |f32_round (n : ℚ) - n| ≤ count_error n * n := by
  unfold count_error
  split
  · rename_i h
    rw [f32_round_nat n h]
    simp
  · have herr := f32_round_err (n : ℚ)
    have h1 : (1 : ℚ) ≤ n := by exact_mod_cast hn
    rw [abs_of_nonneg (by positivity : (0 : ℚ) ≤ n)] at herr
    have h2 : eta32 ≤ u32 := pow2_le (by norm_num)
    have h3 : eta32 * 1 ≤ u32 * n := mul_le_mul h2 h1 (by norm_num) u32_nonneg
    linarith

/-- Any finite binary32 average of a non-empty list is within `average_error`
of the exact average. -/
theorem float_average_bound (cs : List ℚ) (hne : cs ≠ []) (a : ℚ)
    (h : float_average cs (cs.length : Int) = some a) :
    |a - cs.sum / (cs.length : ℚ)| ≤ average_error cs := by
  have hu := u32_nonneg
  have hlen : 0 < cs.length := List.length_pos.mpr hne
  have hNpos : (0 : ℚ) < (cs.length : ℚ) := by exact_mod_cast hlen
  have hcast : (((cs.length : Int) : ℚ)) = (cs.length : ℚ) := by push_cast; rfl
  unfold float_average float_total at h
  rw [hcast] at h
  cases ht : float_sum (some 0) cs with
  | none =>
    rw [ht] at h
    simp [f32_div] at h
  | some t =>
    rw [ht] at h
    cases hfn : f32 (cs.length : ℚ) with
    | none =>
      rw [hfn] at h
      simp [f32_div] at h
    | some nf =>
      have hnf := f32_eq_some hfn
      rw [hfn] at h
      simp only [f32_div] at h
      split at h
      · cases h
      · have ha := f32_eq_some h
        have hterr := float_sum_bound cs 0 0 0 0 t (by simp) (by simp) ht
        have hE : |t - cs.sum| ≤ sum_error cs := by
          unfold sum_error
          simpa using hterr
        have hE0 : 0 ≤ sum_error cs := le_trans (abs_nonneg _) hE
        have hT := abs_list_sum_le cs
        have hT0 := abs_sum_nonneg cs
        have htabs : |t| ≤ abs_sum cs + sum_error cs := by
          have := abs_add (t - cs.sum) cs.sum
          have e : t - cs.sum + cs.sum = t := by ring
          rw [e] at this
          linarith
        obtain ⟨hc0, hc1⟩ := count_error_bounds cs.length
        have hcnt := f32_round_count cs.length hlen
        rw [← hnf] at hcnt
        generalize hk : count_error cs.length = k at hc0 hc1 hcnt
        generalize hn : (cs.length : ℚ) = n at hNpos hcnt h ha hfn
        have hk1 : 0 < 1 - k := by linarith
        have hnf_low : n * (1 - k) ≤ nf := by
          have := (abs_le.mp hcnt).1
          linarith
        have hnk : 0 < n * (1 - k) := mul_pos hNpos hk1
        have hnfpos : 0 < nf := lt_of_lt_of_le hnk hnf_low
        have herr := f32_round_err (t / nf)
        rw [← ha] at herr
        -- the three errors
        have hq : |t / nf| ≤ |t| / (n * (1 - k)) := by
          rw [abs_div, abs_of_pos hnfpos]
          exact div_le_div_of_nonneg_left (abs_nonneg _) hnk hnf_low
        have hd : |t / nf - t / n| ≤ k * |t| / (n * (1 - k)) := by
          have e : t / nf - t / n = t * (n - nf) / (nf * n) := by
            field_simp
            ring
          rw [e, abs_div, abs_mul, abs_of_pos (mul_pos hnfpos hNpos)]
          have h1 : |n - nf| ≤ k * n := by
            rw [abs_sub_comm]
            exact hcnt
          have h2 : |t| * |n - nf| ≤ |t| * (k * n) :=
            mul_le_mul_of_nonneg_left h1 (abs_nonneg _)
          have h3 : |t| * |n - nf| / (nf * n) ≤ |t| * (k * n) / (nf * n) :=
            div_le_div_of_nonneg_right h2 (mul_pos hnfpos hNpos).le
          have h4 : |t| * (k * n) / (nf * n) = k * |t| / nf := by
            field_simp
            ring
          have h5 : k * |t| / nf ≤ k * |t| / (n * (1 - k)) :=
            div_le_div_of_nonneg_left (mul_nonneg hc0 (abs_nonneg _)) hnk hnf_low
          linarith
        have hs : |(t - cs.sum) / n| ≤ sum_error cs / n := by
          rw [abs_div, abs_of_pos hNpos]
          exact div_le_div_of_nonneg_right hE hNpos.le
        have e1 : a - cs.sum / n = (a - t / nf) + (t / nf - t / n) + (t - cs.sum) / n := by
          ring
        have t1 := abs_add ((a - t / nf) + (t / nf - t / n)) ((t - cs.sum) / n)
        have t2 := abs_add (a - t / nf) (t / nf - t / n)
        have h6 : u32 * (|t| / (n * (1 - k))) + k * |t| / (n * (1 - k)) =
            (u32 + k) / (1 - k) * |t| / n := by
          field_simp
          ring
        have h7 : (u32 + k) / (1 - k) * |t| / n ≤
            (u32 + k) / (1 - k) * (abs_sum cs + sum_error cs) / n := by
          apply div_le_div_of_nonneg_right _ hNpos.le
          apply mul_le_mul_of_nonneg_left htabs
          exact div_nonneg (by linarith) hk1.le
        have h8 : u32 * |t / nf| ≤ u32 * (|t| / (n * (1 - k))) :=
          mul_le_mul_of_nonneg_left hq hu
        unfold average_error
        rw [hk, hn, e1]
        have e9 : ((u32 + k) / (1 - k) * (abs_sum cs + sum_error cs) + sum_error cs) / n =
            (u32 + k) / (1 - k) * (abs_sum cs + sum_error cs) / n + sum_error cs / n := by
          ring
        rw [e9]
        linarith

/-- The binary32 average of a non-empty list is finite when the count is an
`int` and the magnitudes stay below `2 ^ 126`. -/
theorem float_average_finite (cs : List ℚ) (hne : cs ≠ []) (hN : cs.length ≤ 2 ^ 31)
    (hM : abs_sum cs + sum_error cs ≤ pow2 126) :
    ∃ a, float_average cs (cs.length : Int) = some a := by
  have hu := u32_nonneg
  have hM2 : (0 : ℚ) + abs_sum cs + ((1 + u32) ^ cs.length * 0 +
      2 * (cs.length : ℚ) * (1 + u32) ^ cs.length * (u32 * (0 + abs_sum cs) + eta32)) ≤
      pow2 126 := by
    unfold sum_error at hM
    simpa using hM
  obtain ⟨t, ht, hterr⟩ := float_sum_err cs 0 0 0 0 (by simp) (by simp) hM2
  have hE : |t - cs.sum| ≤ sum_error cs := by
    unfold sum_error
    simpa using hterr
  have hlen : 0 < cs.length := List.length_pos.mpr hne
  have hNpos : (0 : ℚ) < (cs.length : ℚ) := by exact_mod_cast hlen
  have hT := abs_list_sum_le cs
  have htabs : |t| ≤ abs_sum cs + sum_error cs := by
    have := abs_add (t - cs.sum) cs.sum
    have e : t - cs.sum + cs.sum = t := by ring
    rw [e] at this
    linarith
  have hn127 : |(cs.length : ℚ)| ≤ pow2 127 := by
    rw [abs_of_pos hNpos]
    have h1 : (cs.length : ℚ) ≤ pow2 31 := by
      have : pow2 31 = ((2 ^ 31 : Nat) : ℚ) := by
        unfold pow2
        norm_num
      rw [this]
      exact_mod_cast hN
    have : pow2 31 ≤ pow2 127 := pow2_le (by norm_num)
    linarith
  have hcast : (((cs.length : Int) : ℚ)) = (cs.length : ℚ) := by push_cast; rfl
  have hfn := f32_some hn127
  obtain ⟨hc0, hc1⟩ := count_error_bounds cs.length
  have hcnt := f32_round_count cs.length hlen
  have h1 : (1 : ℚ) ≤ (cs.length : ℚ) := by exact_mod_cast hlen
  have hhalf : (1 : ℚ) / 2 ≤ f32_round (cs.length : ℚ) := by
    have := (abs_le.mp hcnt).1
    have h2 : count_error cs.length * (cs.length : ℚ) ≤ 1 / 2 * (cs.length : ℚ) :=
      mul_le_mul_of_nonneg_right hc1 hNpos.le
    linarith
  have hnfpos : (0 : ℚ) < f32_round (cs.length : ℚ) := by linarith
  have hq127 : |t / f32_round (cs.length : ℚ)| ≤ pow2 127 := by
    rw [abs_div, abs_of_pos hnfpos, div_le_iff₀ hnfpos]
    have e127 : pow2 127 = 2 * pow2 126 := by
      unfold pow2
      norm_num
    have h3 : pow2 127 * (1 / 2) ≤ pow2 127 * f32_round (cs.length : ℚ) :=
      mul_le_mul_of_nonneg_left hhalf (pow2_pos _).le
    rw [e127] at h3 ⊢
    linarith
  refine ⟨f32_round (t / f32_round (cs.length : ℚ)), ?_⟩
  unfold float_average float_total
  rw [ht, hcast, hfn]
  simp only [f32_div, if_neg (ne_of_gt hnfpos), f32_some hq127]

/-- The count of a completed parse pass is an `int`. -/
theorem run_total_entries_le (file : List Char) (st : State) (h : run file = .ok st) :
    st.total_entries ≤ INT_MAX := by
  refine run_induct (fun st _ => st.total_entries ≤ INT_MAX) (by decide) ?_ file st h
  intro st st1 recs r hst hagg
  obtain ⟨h1, h2, -⟩ := aggregate_ok hagg
  rw [h2]
  omega

/-- C4 (amended). For every input file with at least one accepted record on
which the program completes: Total Entries is the number of accepted records,
and in exact arithmetic the reported Average CPU is the sum of the `cpu`
fields of all accepted records divided by Total Entries and the reported
Average Memory the sum of the `mem` fields divided by Total Entries; in the
binary32 arithmetic of the source, every finite Average CPU is within
`average_error` of that exact quotient (a bound proportional to the sum of the
magnitudes of the fields, not the constant 1e-4) and the figure printed with
two decimals is within 0.005 of the average; the Average CPU is finite when
the sum of the magnitudes and `sum_error` stay within `2 ^ 126`; and the same
holds of the Average Memory. -/
theorem C4_averages (file : List Char) (out : Outcome)
    (h : main 2 (some file) = .ok out) (hne : records file ≠ []) :
    (∃ rep, out.report = some rep ∧
      rep.total_entries = ((records file).length : Int) ∧
      rep.avg_cpu =
        some (((records file).map (fun r => r.cpu)).sum / (rep.total_entries : ℚ)) ∧
      rep.avg_mem =
        some (((records file).map (fun r => r.mem)).sum / (rep.total_entries : ℚ))) ∧
    (∀ a, float_average (cpu_fields file) ((records file).length : Int) = some a →
      |a - (cpu_fields file).sum / ((records file).length : ℚ)| ≤
          average_error (cpu_fields file) ∧
        |print_2dp a - a| ≤ 1 / 200) ∧
    (abs_sum (cpu_fields file) + sum_error (cpu_fields file) ≤ pow2 126 →
      ∃ a, float_average (cpu_fields file) ((records file).length : Int) = some a) ∧
    (∀ a, float_average (mem_fields file) ((records file).length : Int) = some a →
      |a - (mem_fields file).sum / ((records file).length : ℚ)| ≤
          average_error (mem_fields file) ∧
        |print_2dp a - a| ≤ 1 / 200) ∧
    (abs_sum (mem_fields file) + sum_error (mem_fields file) ≤ pow2 126 →
      ∃ a, float_average (mem_fields file) ((records file).length : Int) = some a) := by
  obtain ⟨st, hr, rfl⟩ := main_ok h
  obtain ⟨-, -, hn, hcpu, hmem⟩ := run_summarises file st hr
  have hpos : st.total_entries ≠ 0 := by
    rw [hn]
    have : (records file).length ≠ 0 := fun h0 => hne (List.length_eq_zero.mp h0)
    exact_mod_cast this
  have hmax := run_total_entries_le file st hr
  have hlen : (records file).length ≤ 2 ^ 31 := by
    rw [hn] at hmax
    unfold INT_MAX at hmax
    omega
  have hc : (cpu_fields file).length = (records file).length := by
    simp [cpu_fields]
  have hm : (mem_fields file).length = (records file).length := by
    simp [mem_fields]
  have hcne : cpu_fields file ≠ [] := fun h0 => hne (by simpa [cpu_fields] using h0)
  have hmne : mem_fields file ≠ [] := fun h0 => hne (by simpa [mem_fields] using h0)
  refine ⟨⟨_, rfl, hn, ?_, ?_⟩, ?_, ?_, ?_, ?_⟩
  · simp only [average, hpos, if_false, hcpu]
  · simp only [average, hpos, if_false, hmem]
  · intro a ha
    rw [← hc] at ha ⊢
    exact ⟨float_average_bound _ hcne a ha, print_2dp_err a⟩
  · intro hM
    rw [← hc]
    exact float_average_finite _ hcne (by rw [hc]; exact hlen) hM
  · intro a ha
    rw [← hm] at ha ⊢
    exact ⟨float_average_bound _ hmne a ha, print_2dp_err a⟩
  · intro hM
    rw [← hm]
    exact float_average_finite _ hmne (by rw [hm]; exact hlen) hM

/-- C4 at a log of three records with the cpu fields 0.1, 0.2, 0.3 and the
mem fields 7, 8, 9: the exact averages are 1/5 and 8; the binary32 Average CPU
is 13421773/67108864, not 1/5, within `average_error` (here below 1e-4) of it,
and is printed as 0.20; the binary32 Average Memory is 8; both are finite by
the magnitude condition. -/
theorem C4_averages_witness :
    main 2 (some sample_tenths) =
      .ok ⟨0, some ⟨3, some (1 / 5), some 8,
        [⟨"ann".toList, 2, 2 / 5⟩, ⟨"ben".toList, 1, 1 / 5⟩]⟩⟩ ∧
    records sample_tenths ≠ [] ∧
    (∃ rep, (Outcome.mk 0 (some ⟨3, some (1 / 5), some 8,
        [⟨"ann".toList, 2, 2 / 5⟩, ⟨"ben".toList, 1, 1 / 5⟩]⟩)).report = some rep ∧
      rep.total_entries = ((records sample_tenths).length : Int) ∧
      rep.avg_cpu =
        some (((records sample_tenths).map (fun r => r.cpu)).sum / (rep.total_entries : ℚ)) ∧
      rep.avg_mem =
        some (((records sample_tenths).map (fun r => r.mem)).sum /
          (rep.total_entries : ℚ))) ∧
    (float_average (cpu_fields sample_tenths) ((records sample_tenths).length : Int) =
        some (13421773 / 67108864) ∧
      (cpu_fields sample_tenths).sum / ((records sample_tenths).length : ℚ) = 1 / 5 ∧
      |(13421773 / 67108864 : ℚ) -
          (cpu_fields sample_tenths).sum / ((records sample_tenths).length : ℚ)| ≤
        average_error (cpu_fields sample_tenths) ∧
      |print_2dp (13421773 / 67108864) - 13421773 / 67108864| ≤ 1 / 200 ∧
      average_error (cpu_fields sample_tenths) ≤ 1 / 10000 ∧
      print_2dp (13421773 / 67108864) = 1 / 5) ∧
    (abs_sum (cpu_fields sample_tenths) + sum_error (cpu_fields sample_tenths) ≤ pow2 126 ∧
      ∃ a, float_average (cpu_fields sample_tenths) ((records sample_tenths).length : Int) =
        some a) ∧
    (float_average (mem_fields sample_tenths) ((records sample_tenths).length : Int) =
        some 8 ∧
      |(8 : ℚ) - (mem_fields sample_tenths).sum / ((records sample_tenths).length : ℚ)| ≤
        average_error (mem_fields sample_tenths) ∧
      |print_2dp 8 - 8| ≤ 1 / 200 ∧
      average_error (mem_fields sample_tenths) ≤ 1 / 10000) ∧
    (abs_sum (mem_fields sample_tenths) + sum_error (mem_fields sample_tenths) ≤ pow2 126 ∧
      ∃ a, float_average (mem_fields sample_tenths) ((records sample_tenths).length : Int) =
        some a) :=
  have h := C4_averages sample_tenths
    ⟨0, some ⟨3, some (1 / 5), some 8,
      [⟨"ann".toList, 2, 2 / 5⟩, ⟨"ben".toList, 1, 1 / 5⟩]⟩⟩ (by decide!) (by decide!)
  ⟨by decide!, by decide!, h.1,
    ⟨by decide!, by decide!, (h.2.1 (13421773 / 67108864) (by decide!)).1,
      (h.2.1 (13421773 / 67108864) (by decide!)).2, by decide!, by decide!⟩,
    ⟨by decide!, h.2.2.1 (by decide!)⟩,
    ⟨by decide!, (h.2.2.2.1 8 (by decide!)).1, (h.2.2.2.1 8 (by decide!)).2, by decide!⟩,
    ⟨by decide!, h.2.2.2.2 (by decide!)⟩⟩

/-- C4 as stated fails in the arithmetic of the source, on files on which the
program completes with three and two accepted records. On the cpu fields
100000000, 1, -100000000 the exact average is 1/3, but the binary32 total
absorbs the 1 and the Average CPU is 0, further than 1e-4 from 1/3. On the cpu
fields 1, 0, 0 the Average CPU is within 1e-4 of 1/3 but the report prints it
with two decimals, as 0.33, further than 1e-4 from 1/3. On the cpu fields
3e38, 3e38 the binary32 total is not finite, while the exact average is 3e38. -/
theorem C4_rounding_counterexample :
    (main 2 (some sample_cancel) =
        .ok ⟨0, some ⟨3, some (1 / 3), some 1, [⟨"a".toList, 3, 1⟩]⟩⟩ ∧
      cpu_fields sample_cancel = [100000000, 1, -100000000] ∧
      (cpu_fields sample_cancel).sum / ((records sample_cancel).length : ℚ) = 1 / 3 ∧
      float_average (cpu_fields sample_cancel) ((records sample_cancel).length : Int) =
        some 0 ∧
      ¬ |(0 : ℚ) - 1 / 3| ≤ 1 / 10000) ∧
    (main 2 (some sample_third) =
        .ok ⟨0, some ⟨3, some (1 / 3), some 1, [⟨"a".toList, 3, 1⟩]⟩⟩ ∧
      cpu_fields sample_third = [1, 0, 0] ∧
      (cpu_fields sample_third).sum / ((records sample_third).length : ℚ) = 1 / 3 ∧
      float_average (cpu_fields sample_third) ((records sample_third).length : Int) =
        some (11184811 / 33554432) ∧
      print_2dp (11184811 / 33554432) = 33 / 100 ∧
      ¬ |(33 : ℚ) / 100 - 1 / 3| ≤ 1 / 10000) ∧
    (cpu_fields sample_overflow =
        [300000000000000000000000000000000000000, 300000000000000000000000000000000000000] ∧
      f32 300000000000000000000000000000000000000 =
        some 300000000549775575777803994281145270272 ∧
      float_total (cpu_fields sample_overflow) = none ∧
      float_average (cpu_fields sample_overflow) ((records sample_overflow).length : Int) =
        none) := by
  decide!

theorem find_or_add_user_nodup {users users1 : List UserStat} {name : List Char} {i : Nat}
    (hnd : (usernames users).Nodup) (h : find_or_add_user users name = .ok (users1, i)) :
    (usernames users1).Nodup := by
  rcases find_or_add_user_ok h with ⟨-, -, -, -, -, -, h4, -⟩ | ⟨h1, -, h3, -⟩
  · rw [h4]; exact hnd
  · rw [h3]
    simp only [usernames, List.map_append, List.map_cons, List.map_nil]
    rw [List.nodup_append]
    refine ⟨hnd, List.nodup_singleton _, ?_⟩
    intro a ha hb
    simp only [List.mem_singleton] at hb
    subst hb
    simp only [usernames, List.mem_map] at ha
    obtain ⟨x, hx, hxe⟩ := ha
    exact h1 x hx hxe

/-- C9. The per-user table never holds two entries with the same username:
after the parse loop has completed on any input file the usernames of the table
are pairwise distinct as strings, and `find_or_add_user`, when it succeeds on a
table with pairwise distinct usernames, returns such a table. -/
theorem C9_usernames_distinct (file : List Char) (st : State) (h : run file = .ok st)
    (users users1 : List UserStat) (name : List Char) (i : Nat)
    (hnd : (usernames users).Nodup) (hf : find_or_add_user users name = .ok (users1, i)) :
    (usernames st.users).Nodup ∧ (usernames users1).Nodup := by
  refine ⟨?_, find_or_add_user_nodup hnd hf⟩
  rw [(run_summarises file st h).1]
  exact nodup_first_seen _

/-- C9 at a log with the users Alice and alice: they are two entries, and
adding ALICE to that table keeps the usernames distinct. -/
theorem C9_usernames_distinct_witness :
    run sample_case = .ok ⟨[⟨"Alice".toList, 2, 4⟩, ⟨"alice".toList, 1, 2⟩], 3, 6, 6⟩ ∧
    (usernames [⟨"Alice".toList, 2, 4⟩, ⟨"alice".toList, 1, 2⟩]).Nodup ∧
    find_or_add_user [⟨"Alice".toList, 2, 4⟩, ⟨"alice".toList, 1, 2⟩] "ALICE".toList =
      .ok ([⟨"Alice".toList, 2, 4⟩, ⟨"alice".toList, 1, 2⟩, ⟨"ALICE".toList, 0, 0⟩], 2) ∧
    (usernames [⟨"Alice".toList, 2, 4⟩, ⟨"alice".toList, 1, 2⟩, ⟨"ALICE".toList, 0, 0⟩]).Nodup :=
  have h := C9_usernames_distinct sample_case
    ⟨[⟨"Alice".toList, 2, 4⟩, ⟨"alice".toList, 1, 2⟩], 3, 6, 6⟩ (by decide!)
    [⟨"Alice".toList, 2, 4⟩, ⟨"alice".toList, 1, 2⟩]
    [⟨"Alice".toList, 2, 4⟩, ⟨"alice".toList, 1, 2⟩, ⟨"ALICE".toList, 0, 0⟩]
    "ALICE".toList 2 (by decide) (by decide!)
  ⟨by decide!, h.1, by decide!, h.2⟩

/-- C5 (the code at an input without any accepted record). On a file that holds
only a malformed line the program divides by `total_entries = 0` in both
children, prints the report with Total Entries 0 and two averages that are
not numbers, and returns exit code 0; the same on the empty file. -/
theorem C5_zero_entries_report :
    main 2 (some "garbage line here\n".toList) = .ok ⟨0, some ⟨0, none, none, []⟩⟩ ∧
    main 2 (some []) = .ok ⟨0, some ⟨0, none, none, []⟩⟩ := by
  decide!

/-! ## The line parser seen through the tokens of the line -/

theorem isspace_facts {c : Char} (h : isspace c = true) :
    c ≠ '-' ∧ c ≠ '+' ∧ c ≠ '.' ∧ c ≠ 'e' ∧ c ≠ 'E' ∧ c ≠ 'x' ∧ c ≠ 'X' ∧ c ≠ 'n' ∧ c ≠ 'N' ∧
    c ≠ 'a' ∧ c ≠ 'A' ∧ c ≠ 'f' ∧ c ≠ 'F' ∧ c ≠ 'i' ∧ c ≠ 'I' ∧ c ≠ '0' ∧ isdigit c = false := by
  refine ⟨?_, ?_, ?_, ?_, ?_, ?_, ?_, ?_, ?_, ?_, ?_, ?_, ?_, ?_, ?_, ?_, ?_⟩
  all_goals first
    | (rintro rfl; revert h; decide)
    | (simp only [isspace, isdigit, Bool.or_eq_true, Bool.and_eq_true, decide_eq_true_eq,
        Bool.and_eq_false_iff, decide_eq_false_iff_not] at h ⊢; omega)

theorem dropWhile_head {p : Char → Bool} {l : List Char} {c : Char} {cs : List Char}
    (h : l.dropWhile p = c :: cs) : p c = false := by
  induction l with
  | nil => cases h
  | cons x xs ih =>
    rw [List.dropWhile_cons] at h
    split at h
    · exact ih h
    · rename_i hx
      cases h
      simpa using hx

theorem ws_head_dropWhile (cs : List Char) :
    ws_head (cs.dropWhile (fun x => !isspace x)) := by
  intro c hc
  cases hd : cs.dropWhile (fun x => !isspace x) with
  | nil => rw [hd] at hc; cases hc
  | cons y ys =>
    rw [hd] at hc
    simp only [List.head?_cons, Option.some.injEq] at hc
    subst hc
    simpa using dropWhile_head hd

theorem digits_append {s r : List Char} (hr : ws_head r) :
    (s ++ r).takeWhile isdigit = s.takeWhile isdigit ∧
    (s ++ r).dropWhile isdigit = s.dropWhile isdigit ++ r := by
  induction s with
  | nil =>
    cases r with
    | nil => simp
    | cons c cs =>
      have hc := (isspace_facts (hr c rfl)).2.2.2.2.2.2.2.2.2.2.2.2.2.2.2.2
      simp [List.takeWhile_cons, List.dropWhile_cons, hc]
  | cons x xs ih =>
    by_cases hx : isdigit x = true
    · simp [List.takeWhile_cons, List.dropWhile_cons, hx, ih.1, ih.2]
    · simp [List.takeWhile_cons, List.dropWhile_cons, hx]

theorem scan_sign_append {s r : List Char} (hr : ws_head r) :
    scan_sign (s ++ r) = ((scan_sign s).1, (scan_sign s).2 ++ r) := by
  cases s with
  | nil =>
    cases r with
    | nil => rfl
    | cons c cs =>
      obtain ⟨h1, h2, -⟩ := isspace_facts (hr c rfl)
      simp [scan_sign, h1, h2]
  | cons x xs =>
    simp only [List.cons_append, scan_sign]
    split
    · rfl
    · split <;> rfl

theorem scan_fraction_append {s r : List Char} (hr : ws_head r) :
    scan_fraction (s ++ r) = ((scan_fraction s).1, (scan_fraction s).2 ++ r) := by
  cases s with
  | nil =>
    cases r with
    | nil => rfl
    | cons c cs =>
      obtain ⟨-, -, h3, -⟩ := isspace_facts (hr c rfl)
      simp [scan_fraction, h3]
  | cons x xs =>
    simp only [List.cons_append, scan_fraction]
    split
    · simp [(digits_append hr).1, (digits_append hr).2]
    · rfl

theorem scan_exponent_append {s r : List Char} (hr : ws_head r) :
    scan_exponent (s ++ r) = (scan_exponent s).map (fun p => (p.1, p.2 ++ r)) := by
  cases s with
  | nil =>
    cases r with
    | nil => rfl
    | cons c cs =>
      obtain ⟨-, -, -, h4, h5, -⟩ := isspace_facts (hr c rfl)
      simp [scan_exponent, h4, h5]
  | cons x xs =>
    simp only [List.cons_append, scan_exponent]
    split
    · rw [scan_sign_append hr]
      simp only [(digits_append hr).1, (digits_append hr).2]
      split <;> rfl
    · rfl

theorem special_float_append {s r : List Char} (hr : ws_head r) :
    special_float (s ++ r) = special_float s := by
  match s, r, hr with
  | [], [], _ => rfl
  | [], [c], hr =>
    rfl
  | [], [c, d], hr =>
    obtain ⟨-, -, -, -, -, -, -, -, -, -, -, -, -, -, -, h0, -⟩ := isspace_facts (hr c rfl)
    simp [special_float, h0]
  | [], c :: d :: e :: _, hr =>
    obtain ⟨-, -, -, -, -, -, -, hn, hN, -, -, -, -, hi, hI, h0, -⟩ := isspace_facts (hr c rfl)
    simp [special_float, h0, hn, hN, hi, hI]
  | [a], [], _ => rfl
  | [a], [c], hr =>
    obtain ⟨-, -, -, -, -, hx, hX, -⟩ := isspace_facts (hr c rfl)
    simp [special_float, hx, hX]
  | [a], c :: d :: _, hr =>
    obtain ⟨-, -, -, -, -, hx, hX, hn, hN, ha, hA, -⟩ := isspace_facts (hr c rfl)
    simp [special_float, hx, hX, hn, hN, ha, hA]
  | [a, b], [], _ => rfl
  | [a, b], c :: _, hr =>
    obtain ⟨-, -, -, -, -, -, -, hn, hN, -, -, hf, hF, -⟩ := isspace_facts (hr c rfl)
    simp [special_float, hn, hN, hf, hF]
  | a :: b :: c :: _, _, _ => rfl

/-- A `%f` conversion reads no further than the token it starts in: on a token
followed by `r` it gives what it gives on the token alone, with `r` left over
in addition. -/
theorem scan_number_append (t r : List Char) (hr : ws_head r) :
    scan_number (t ++ r) = extend_rest (scan_number t) r := by
  unfold scan_number
  simp only [scan_sign_append hr, special_float_append hr, (digits_append hr).1,
    (digits_append hr).2, scan_fraction_append hr, scan_exponent_append hr]
  split
  · rfl
  · split
    · rfl
    · cases scan_exponent (scan_fraction (List.dropWhile isdigit (scan_sign t).2)).2 with
      | none => rfl
      | some p => rfl

theorem dropWhile_length_le (p : Char → Bool) (l : List Char) :
    (l.dropWhile p).length ≤ l.length := by
  have h := congrArg List.length (List.takeWhile_append_dropWhile p l)
  simp only [List.length_append] at h
  omega

theorem tokens_aux_fuel (f1 f2 : Nat) (s : List Char) (h1 : s.length ≤ f1)
    (h2 : s.length ≤ f2) : tokens_aux f1 s = tokens_aux f2 s := by
  induction f1 generalizing f2 s with
  | zero =>
    have hs : s = [] := List.length_eq_zero.mp (Nat.le_zero.mp h1)
    subst hs
    cases f2 <;> simp [tokens_aux]
  | succ f1 ih =>
    cases f2 with
    | zero =>
      have hs : s = [] := List.length_eq_zero.mp (Nat.le_zero.mp h2)
      subst hs
      simp [tokens_aux]
    | succ f2 =>
      have hlen := dropWhile_length_le isspace s
      cases hd : s.dropWhile isspace with
      | nil => simp [tokens_aux, hd]
      | cons c cs =>
        have hlen2 := dropWhile_length_le (fun x => !isspace x) cs
        rw [hd, List.length_cons] at hlen
        simp only [tokens_aux, hd]
        rw [ih f2 _ (by omega) (by omega)]

theorem tokens_nil {s : List Char} (h : s.dropWhile isspace = []) : tokens s = [] := by
  unfold tokens
  cases s.length <;> simp [tokens_aux, h]

theorem tokens_cons {s : List Char} {c : Char} {cs : List Char}
    (h : s.dropWhile isspace = c :: cs) :
    tokens s = (c :: cs.takeWhile (fun x => !isspace x)) ::
      tokens (cs.dropWhile (fun x => !isspace x)) := by
  have hlen := dropWhile_length_le isspace s
  have hlen2 := dropWhile_length_le (fun x => !isspace x) cs
  rw [h, List.length_cons] at hlen
  unfold tokens
  obtain ⟨n, hn⟩ : ∃ n, s.length = n + 1 := ⟨s.length - 1, by omega⟩
  rw [hn]
  simp only [tokens_aux, h]
  rw [tokens_aux_fuel n _ _ (by omega) (le_refl _)]

/-- A `%f` conversion in terms of the tokens of its input: it fails on an input
without tokens, and otherwise scans a number in the first token. -/
theorem scan_f_tokens (s : List Char) :
    (tokens s = [] ∧ scan_f s = .ok none) ∨
    (∃ t r, tokens s = t :: tokens r ∧ ws_head r ∧
      scan_f s = extend_rest (scan_number t) r) := by
  cases hd : s.dropWhile isspace with
  | nil => exact Or.inl ⟨tokens_nil hd, by simp [scan_f, hd]⟩
  | cons c cs =>
    refine Or.inr ⟨_, _, tokens_cons hd, ws_head_dropWhile cs, ?_⟩
    rw [← scan_number_append _ _ (ws_head_dropWhile cs)]
    simp only [scan_f, hd, List.cons_append, List.takeWhile_append_dropWhile]

/-- The two `%f` conversions in terms of the tokens after the three strings. -/
theorem scan_floats_tokens (a b c r3 : List Char) :
    (tokens r3 = [] ∧ scan_floats a b c r3 = .ok none) ∨
    (∃ t4 r4, tokens r3 = t4 :: tokens r4 ∧
      (scan_number t4 = .ok none → scan_floats a b c r3 = .ok none) ∧
      (∀ v, scan_number t4 = .ok (some (v, [])) →
        (tokens r4 = [] ∧ scan_floats a b c r3 = .ok none) ∨
        (∃ t5 r5, tokens r4 = t5 :: tokens r5 ∧
          (scan_number t5 = .ok none → scan_floats a b c r3 = .ok none)))) := by
  rcases scan_f_tokens r3 with ⟨ht, hs⟩ | ⟨t4, r4, ht4, -, hs4⟩
  · exact Or.inl ⟨ht, by simp [scan_floats, hs]⟩
  · refine Or.inr ⟨t4, r4, ht4, ?_, ?_⟩
    · intro h4
      simp [scan_floats, hs4, h4, extend_rest]
    · intro v h4
      rcases scan_f_tokens r4 with ⟨ht, hs⟩ | ⟨t5, r5, ht5, -, hs5⟩
      · exact Or.inl ⟨ht, by simp [scan_floats, hs4, h4, extend_rest, hs]⟩
      · refine Or.inr ⟨t5, r5, ht5, ?_⟩
        intro h5
        simp [scan_floats, hs4, h4, extend_rest, hs5, h5]

theorem scan_s_fault {cap : Nat} {s : List Char} {f : Fault} (h : scan_s cap s = .error f) :
    f = .bufferOverflow := by
  unfold scan_s at h
  split at h
  · cases h
  · simp only at h
    split at h
    · cases h; rfl
    · cases h

theorem scan_number_fault {s : List Char} {f : Fault} (h : scan_number s = .error f) :
    f = .unmodelledFloat := by
  unfold scan_number at h
  split at h
  · cases h; rfl
  · simp only at h
    split at h
    · cases h
    · split at h
      · cases h; rfl
      · cases h

theorem scan_f_fault {s : List Char} {f : Fault} (h : scan_f s = .error f) :
    f = .unmodelledFloat := by
  unfold scan_f at h
  split at h
  · cases h
  · exact scan_number_fault h

theorem scan_floats_fault {a b c s : List Char} {f : Fault}
    (h : scan_floats a b c s = .error f) : f = .unmodelledFloat := by
  unfold scan_floats at h
  split at h
  · rename_i g hg
    cases h
    exact scan_f_fault hg
  · cases h
  · split at h
    · rename_i g hg
      cases h
      exact scan_f_fault hg
    · cases h
    · cases h

/-- The line parser never reports a fault of the table. -/
theorem sscanf_line_fault {s : List Char} {f : Fault} (h : sscanf_line s = .error f) :
    f ≠ .tableOverflow := by
  unfold sscanf_line at h
  split at h
  · rename_i g hg
    cases h
    rw [scan_s_fault hg]; decide
  · cases h
  · split at h
    · rename_i g hg
      cases h
      rw [scan_s_fault hg]; decide
    · cases h
    · split at h
      · rename_i g hg
        cases h
        rw [scan_s_fault hg]; decide
      · cases h
      · rw [scan_floats_fault h]; decide

/-- The table overflows only when it is full and the username is not in it. -/
theorem aggregate_tableOverflow {st : State} {r : LogRecord}
    (h : aggregate st r = .error .tableOverflow) :
    MAX_USERS ≤ st.users.length ∧ ∀ x ∈ st.users, x.username ≠ r.username := by
  unfold aggregate at h
  split at h
  · cases h
  · cases hf : find_or_add_user st.users r.username with
    | ok res => rw [hf] at h; cases h
    | error f =>
      unfold find_or_add_user at hf
      split at hf
      · cases hf
      · rename_i hfind
        split at hf
        · cases hf
        · rename_i hlt
          exact ⟨Nat.le_of_not_lt hlt, find_user_none hfind⟩

theorem process_line_tableOverflow {st : State} {line : List Char}
    (h : process_line st line = .error .tableOverflow) :
    ∃ r, sscanf_line (c_string line) = .ok (some r) ∧
      aggregate st r = .error .tableOverflow := by
  unfold process_line at h
  split at h
  · rename_i f hf
    simp only [Except.error.injEq] at h
    exact absurd h (sscanf_line_fault hf)
  · cases h
  · rename_i r hr
    exact ⟨r, hr, h⟩

theorem first_seen_length_mono (l l1 : List (List Char)) :
    (first_seen l).length ≤ (first_seen (l ++ l1)).length := by
  induction l1 generalizing l with
  | nil => simp
  | cons x l1 ih =>
    have h1 : (first_seen l).length ≤ (first_seen (l ++ [x])).length := by
      rw [first_seen_snoc]
      split <;> simp
    have h2 := ih (l ++ [x])
    rw [List.append_assoc, List.singleton_append] at h2
    omega

/-- When the parse loop overflows the table, the accepted records hold more
than `MAX_USERS` distinct usernames. -/
theorem parse_loop_tableOverflow (lines : List (List Char)) (st : State)
    (recs : List LogRecord) (hinv : Summarises st recs)
    (h : parse_loop lines st = .error .tableOverflow) :
    MAX_USERS < (first_seen ((recs ++ accepted lines).map (fun r => r.username))).length := by
  induction lines generalizing st recs with
  | nil => cases h
  | cons line rest ih =>
    unfold parse_loop at h
    split at h
    · rename_i f hp
      simp only [Except.error.injEq] at h
      subst h
      obtain ⟨r, hs, hagg⟩ := process_line_tableOverflow hp
      obtain ⟨hfull, hnew⟩ := aggregate_tableOverflow hagg
      have hnin : r.username ∉ recs.map (fun r => r.username) := by
        rw [← mem_first_seen, ← hinv.1]
        simp only [usernames, List.mem_map, not_exists, not_and]
        exact fun x hx => hnew x hx
      have hlen : (first_seen (recs.map (fun r => r.username))).length = st.users.length := by
        rw [← hinv.1]; simp [usernames]
      have hmono := first_seen_length_mono
        ((recs ++ [r]).map (fun r => r.username)) ((accepted rest).map (fun r => r.username))
      rw [List.map_append, List.map_singleton, first_seen_snoc, if_neg hnin,
        List.length_append, List.length_singleton, hlen] at hmono
      simp only [accepted, hs, List.map_append, List.map_cons]
      simp only [List.append_assoc, List.singleton_append] at hmono
      omega
    · rename_i st2 hp
      rcases process_line_ok hp with ⟨hs, rfl⟩ | ⟨r, hs, hagg⟩
      · have := ih st2 recs hinv h
        simpa [accepted, hs] using this
      · have := ih st2 (recs ++ [r]) (summarises_step _ _ _ _ hinv hagg) h
        simpa [accepted, hs] using this

theorem first_seen_length_le (l : List (List Char)) : (first_seen l).length ≤ l.length := by
  induction l with
  | nil => simp [first_seen]
  | cons x l ih =>
    have := List.length_filter_le (fun y => decide (y ≠ x)) (first_seen l)
    simp only [first_seen, List.length_cons]
    omega

theorem first_seen_eq_nil (l : List (List Char)) : first_seen l = [] ↔ l = [] := by
  cases l <;> simp [first_seen]

theorem cpu_total_step (st st1 : State) (r : LogRecord)
    (hinv : cpu_total st.users = st.total_cpu) (h : aggregate st r = .ok st1) :
    cpu_total st1.users = st1.total_cpu := by
  obtain ⟨-, -, h2, -, hcase⟩ := aggregate_ok h
  rw [h2, ← hinv]
  rcases hcase with ⟨pre, e, post, hu, -, -, hu1⟩ | ⟨-, -, hu1⟩
  · rw [hu, hu1]
    simp only [cpu_total, bump, List.map_append, List.map_cons, List.sum_append,
      List.sum_cons]
    ring
  · rw [hu1]
    simp [cpu_total]

/-- C12 (amended). For every input file on which the parse loop completes,
every entry of the per-user table has `process_count >= 0`, and it has
`total_cpu >= 0` when the cpu fields of the accepted records of its user are
all non-negative. -/
theorem C12_entries_nonnegative (file : List Char) (st : State) (h : run file = .ok st) :
    ∀ e ∈ st.users,
      0 ≤ e.process_count ∧
      ((∀ r ∈ records file, r.username = e.username → 0 ≤ r.cpu) → 0 ≤ e.total_cpu) := by
  intro e he
  obtain ⟨hc, hs⟩ := (run_summarises file st h).2.1 e he
  refine ⟨?_, ?_⟩
  · rw [hc]
    exact Int.natCast_nonneg _
  · intro hpos
    rw [hs]
    apply List.sum_nonneg
    intro x hx
    simp only [List.mem_map] at hx
    obtain ⟨r, hr, rfl⟩ := hx
    simp only [records_of, List.mem_filter, decide_eq_true_eq] at hr
    exact hpos r hr.1 hr.2

/-- C12 (amended) at the scenario: both entries have non-negative fields. -/
theorem C12_entries_nonnegative_witness :
    run scenario = .ok ⟨[⟨"alice".toList, 2, 40⟩, ⟨"bob".toList, 1, 20⟩], 3, 60, 600⟩ ∧
    ∀ e ∈ [(⟨"alice".toList, 2, 40⟩ : UserStat), ⟨"bob".toList, 1, 20⟩],
      0 ≤ e.process_count ∧
      ((∀ r ∈ records scenario, r.username = e.username → 0 ≤ r.cpu) → 0 ≤ e.total_cpu) :=
  ⟨by decide!,
    C12_entries_nonnegative scenario
      ⟨[⟨"alice".toList, 2, 40⟩, ⟨"bob".toList, 1, 20⟩], 3, 60, 600⟩ (by decide!)⟩

/-- C12 as stated fails: `%f` accepts a sign, and a record with cpu `-5`
leaves its user with `total_cpu = -5`. -/
theorem C12_negative_cpu_counterexample :
    run sample_negative =
      .ok ⟨[⟨"bob".toList, 1, -5⟩, ⟨"ann".toList, 1, 2⟩], 2, -3, 2⟩ ∧
    ¬ (0 : ℚ) ≤ (UserStat.mk "bob".toList 1 (-5)).total_cpu := by
  decide!

/-- C18. For every input file on which the parse loop completes, the sum of
`total_cpu` over all entries of the per-user table equals the global
`total_cpu` (exact arithmetic); the report shows that table and, when Total
Entries is not 0, an Average CPU that is a number whose product with Total
Entries equals the sum of the per-user CPU totals. -/
theorem C18_cpu_totals_agree (file : List Char) (st : State) (h : run file = .ok st) :
    cpu_total st.users = st.total_cpu ∧
    ∀ out, main 2 (some file) = .ok out →
      ∃ rep, out.report = some rep ∧ rep.user_stats = st.users ∧
        rep.total_entries = st.total_entries ∧
        (rep.total_entries ≠ 0 →
          ∃ a, rep.avg_cpu = some a ∧
            a * (rep.total_entries : ℚ) = cpu_total rep.user_stats) := by
  have hsum : cpu_total st.users = st.total_cpu :=
    run_induct (fun s _ => cpu_total s.users = s.total_cpu) rfl
      (fun s s1 _ r hs ha => cpu_total_step s s1 r hs ha) file st h
  refine ⟨hsum, ?_⟩
  intro out hout
  obtain ⟨st2, hr, rfl⟩ := main_ok hout
  rw [h] at hr
  cases hr
  refine ⟨_, rfl, rfl, rfl, ?_⟩
  intro hne
  have hq : (st.total_entries : ℚ) ≠ 0 := by exact_mod_cast hne
  refine ⟨st.total_cpu / (st.total_entries : ℚ), ?_, ?_⟩
  · simp only [average, if_neg hne]
  · rw [hsum]
    field_simp

/-- C18 at a log whose cpu fields are not integers: the per-user totals 11/2
and 5/2 add up to the global total 8, and the Average CPU 8/3 times the 3
entries is 8. -/
theorem C18_cpu_totals_agree_witness :
    run sample_mixed = .ok ⟨[⟨"carol".toList, 2, 11 / 2⟩, ⟨"dave".toList, 1, 5 / 2⟩], 3, 8, 10⟩ ∧
    cpu_total [⟨"carol".toList, 2, 11 / 2⟩, ⟨"dave".toList, 1, 5 / 2⟩] = 8 ∧
    main 2 (some sample_mixed) =
      .ok ⟨0, some ⟨3, some (8 / 3), some (10 / 3),
        [⟨"carol".toList, 2, 11 / 2⟩, ⟨"dave".toList, 1, 5 / 2⟩]⟩⟩ ∧
    ∃ rep, (Outcome.mk 0 (some ⟨3, some (8 / 3), some (10 / 3),
        [⟨"carol".toList, 2, 11 / 2⟩, ⟨"dave".toList, 1, 5 / 2⟩]⟩)).report = some rep ∧
      rep.user_stats = [⟨"carol".toList, 2, 11 / 2⟩, ⟨"dave".toList, 1, 5 / 2⟩] ∧
      rep.total_entries = 3 ∧
      (rep.total_entries ≠ 0 →
        ∃ a, rep.avg_cpu = some a ∧
          a * (rep.total_entries : ℚ) = cpu_total rep.user_stats) :=
  have h := C18_cpu_totals_agree sample_mixed
    ⟨[⟨"carol".toList, 2, 11 / 2⟩, ⟨"dave".toList, 1, 5 / 2⟩], 3, 8, 10⟩ (by decide!)
  ⟨by decide!, h.1, by decide!,
    h.2 ⟨0, some ⟨3, some (8 / 3), some (10 / 3),
      [⟨"carol".toList, 2, 11 / 2⟩, ⟨"dave".toList, 1, 5 / 2⟩]⟩⟩ (by decide!)⟩

/-- C19. For every input file on which the parse loop completes, every entry of
the per-user table has `process_count >= 1`, `user_count` is at most
`total_entries`, and the table is empty exactly when `total_entries` is 0. -/
theorem C19_entries_positive (file : List Char) (st : State) (h : run file = .ok st) :
    (∀ e ∈ st.users, 1 ≤ e.process_count) ∧
    (st.user_count : Int) ≤ st.total_entries ∧
    (st.users = [] ↔ st.total_entries = 0) := by
  obtain ⟨hnames, hent, hn, -, -⟩ := run_summarises file st h
  have hlen : st.users.length = (first_seen ((records file).map (fun r => r.username))).length := by
    rw [← hnames]; simp [usernames]
  refine ⟨?_, ?_, ?_⟩
  · intro e he
    have hin : e.username ∈ (records file).map (fun r => r.username) := by
      rw [← mem_first_seen, ← hnames]
      exact List.mem_map_of_mem _ he
    simp only [List.mem_map] at hin
    obtain ⟨r, hr, hru⟩ := hin
    have hmem : r ∈ records_of (records file) e.username := by
      simp [records_of, hr, hru]
    have hpos : 0 < (records_of (records file) e.username).length :=
      List.length_pos_of_mem hmem
    rw [(hent e he).1]
    exact_mod_cast hpos
  · have := first_seen_length_le ((records file).map (fun r => r.username))
    rw [hn, State.user_count, hlen]
    simp only [List.length_map] at this
    exact_mod_cast this
  · rw [hn]
    constructor
    · intro hnil
      have h0 : first_seen ((records file).map (fun r => r.username)) = [] := by
        rw [← hnames, hnil]; rfl
      rw [first_seen_eq_nil, List.map_eq_nil_iff] at h0
      simp [h0]
    · intro h0
      have hrec : records file = [] := by
        apply List.length_eq_zero.mp
        exact_mod_cast h0
      apply List.length_eq_zero.mp
      rw [hlen, hrec]
      rfl

/-- C19 at a log where usernames reappear: three entries for five records. -/
theorem C19_entries_positive_witness :
    run sample_reappear =
      .ok ⟨[⟨"bob".toList, 2, 4⟩, ⟨"alice".toList, 2, 7⟩, ⟨"carol".toList, 1, 4⟩], 5, 15, 15⟩ ∧
    ((3 : Nat) : Int) ≤ 5 :=
  ⟨by decide!,
    (C19_entries_positive sample_reappear
      ⟨[⟨"bob".toList, 2, 4⟩, ⟨"alice".toList, 2, 7⟩, ⟨"carol".toList, 1, 4⟩], 5, 15, 15⟩
      (by decide!)).2.1⟩

/-! ## `find_or_add_user` as a function, and the indices it returns -/

theorem find_user_eq_none {us : List UserStat} {name : List Char} (i : Nat)
    (h : ∀ e ∈ us, e.username ≠ name) : find_user us name i = none := by
  cases hf : find_user us name i with
  | none => rfl
  | some j =>
    obtain ⟨pre, e, post, h1, h2, -, -⟩ := find_user_some hf
    exact absurd h2 (h e (by rw [h1]; simp))

theorem find_user_of_mem {us : List UserStat} {name : List Char}
    (h : ∃ e ∈ us, e.username = name) :
    ∃ pre e post, us = pre ++ e :: post ∧ e.username = name ∧
      (∀ x ∈ pre, x.username ≠ name) ∧ find_user us name 0 = some pre.length := by
  cases hf : find_user us name 0 with
  | none =>
    obtain ⟨e, he, heu⟩ := h
    exact absurd heu (find_user_none hf e he)
  | some j =>
    obtain ⟨pre, e, post, h1, h2, h3, h4⟩ := find_user_some hf
    exact ⟨pre, e, post, h1, h2, h3, by rw [h4, Nat.zero_add]⟩

/-- C16. The function `find_or_add_user` on a table of `user_count` entries
inside `users[MAX_USERS]`: if some entry has the username, it returns the
smallest index whose entry has it and leaves `user_count` and every entry
unchanged; otherwise (the table having room for one more entry) it returns the
old `user_count`, and the table is the old one, every entry unchanged, with
the entry `(username, 0, 0.0)` appended, so that `user_count` is one higher. -/
theorem C16_find_or_add_user (users : List UserStat) (username : List Char) :
    ((∃ e ∈ users, e.username = username) →
      ∃ i e, users[i]? = some e ∧ e.username = username ∧
        (∀ j e1, j < i → users[j]? = some e1 → e1.username ≠ username) ∧
        find_or_add_user users username = .ok (users, i)) ∧
    ((∀ e ∈ users, e.username ≠ username) → users.length < MAX_USERS →
      find_or_add_user users username =
        .ok (users ++ [⟨username, 0, 0⟩], users.length)) := by
  refine ⟨?_, ?_⟩
  · intro h
    obtain ⟨pre, e, post, h1, h2, h3, h4⟩ := find_user_of_mem h
    refine ⟨pre.length, e, ?_, h2, ?_, ?_⟩
    · rw [h1, List.getElem?_append_right (le_refl _)]; simp
    · intro j e1 hj he1
      rw [h1, List.getElem?_append_left hj] at he1
      exact h3 e1 (List.getElem?_mem he1)
    · simp only [find_or_add_user, h4]
  · intro h hroom
    simp only [find_or_add_user, find_user_eq_none 0 h, hroom, if_true]

/-- C16 at a table with alice and bob: bob is found at index 1, carol is added
at index 2. -/
theorem C16_find_or_add_user_witness :
    (∃ e ∈ [(⟨"alice".toList, 2, 40⟩ : UserStat), ⟨"bob".toList, 1, 20⟩],
      e.username = "bob".toList) ∧
    find_or_add_user [⟨"alice".toList, 2, 40⟩, ⟨"bob".toList, 1, 20⟩] "bob".toList =
      .ok ([⟨"alice".toList, 2, 40⟩, ⟨"bob".toList, 1, 20⟩], 1) ∧
    find_or_add_user [⟨"alice".toList, 2, 40⟩, ⟨"bob".toList, 1, 20⟩] "carol".toList =
      .ok ([⟨"alice".toList, 2, 40⟩, ⟨"bob".toList, 1, 20⟩, ⟨"carol".toList, 0, 0⟩], 2) :=
  ⟨⟨⟨"bob".toList, 1, 20⟩, by simp, rfl⟩, by decide!,
    (C16_find_or_add_user [⟨"alice".toList, 2, 40⟩, ⟨"bob".toList, 1, 20⟩] "carol".toList).2
      (by decide) (by decide)⟩

theorem accepted_append (l1 l2 : List (List Char)) :
    accepted (l1 ++ l2) = accepted l1 ++ accepted l2 := by
  induction l1 with
  | nil => rfl
  | cons line rest ih =>
    simp only [List.cons_append, accepted]
    split <;> simp [ih]

theorem parse_loop_summarises {lines : List (List Char)} {st : State}
    (h : parse_loop lines State.init = .ok st) : Summarises st (accepted lines) := by
  have := parse_loop_induct Summarises summarises_step lines State.init st [] summarises_init h
  simpa using this

/-- While the accepted records hold at most `MAX_USERS` distinct usernames, the
table after any number of buffers has at most `MAX_USERS` entries. -/
theorem prefix_user_count {pre post : List (List Char)} {st : State}
    (hd : (first_seen ((accepted (pre ++ post)).map (fun r => r.username))).length ≤ MAX_USERS)
    (h : parse_loop pre State.init = .ok st) :
    st.users.length ≤ MAX_USERS := by
  have hsum := parse_loop_summarises h
  have hlen : st.users.length =
      (first_seen ((accepted pre).map (fun r => r.username))).length := by
    rw [← hsum.1]; simp [usernames]
  have hmono := first_seen_length_mono ((accepted pre).map (fun r => r.username))
    ((accepted post).map (fun r => r.username))
  rw [accepted_append, List.map_append] at hd
  omega

/-- C17. For every input file whose accepted records contain at most
`MAX_USERS` (100) distinct usernames: the parse loop never writes past the end
of the table; after any number of iterations `user_count` is at most 100; and
in every iteration that accepts a record the call of `find_or_add_user`
succeeds with an index below the `user_count` after the call, which is at
most 100. -/
theorem C17_bounds_safety (file : List Char)
    (hd : (first_seen ((records file).map (fun r => r.username))).length ≤ MAX_USERS) :
    run file ≠ .error .tableOverflow ∧
    (∀ pre post st, file_lines file = pre ++ post → parse_loop pre State.init = .ok st →
      st.user_count ≤ MAX_USERS) ∧
    (∀ pre line post st r, file_lines file = pre ++ line :: post →
      parse_loop pre State.init = .ok st → sscanf_line (c_string line) = .ok (some r) →
      ∃ users1 index, find_or_add_user st.users r.username = .ok (users1, index) ∧
        index < users1.length ∧ users1.length ≤ MAX_USERS) := by
  refine ⟨?_, ?_, ?_⟩
  · intro hrun
    have := parse_loop_tableOverflow (file_lines file) State.init [] summarises_init hrun
    simp only [List.nil_append] at this
    exact absurd hd (Nat.not_le_of_lt this)
  · intro pre post st hsplit hloop
    rw [records, hsplit] at hd
    exact prefix_user_count hd hloop
  · intro pre line post st r hsplit hloop hscan
    rw [records, hsplit] at hd
    have hcount := prefix_user_count hd hloop
    have hsum := parse_loop_summarises hloop
    cases hfind : find_user st.users r.username 0 with
    | some i =>
      obtain ⟨p, e, q, h1, -, -, h4⟩ := find_user_some hfind
      refine ⟨st.users, i, by simp only [find_or_add_user, hfind], ?_, hcount⟩
      rw [h4, h1]
      simp
    | none =>
      have hnew := find_user_none hfind
      have hnin : r.username ∉ (accepted pre).map (fun r => r.username) := by
        rw [← mem_first_seen, ← hsum.1]
        simp only [usernames, List.mem_map, not_exists, not_and]
        exact fun x hx => hnew x hx
      have hlen : st.users.length =
          (first_seen ((accepted pre).map (fun r => r.username))).length := by
        rw [← hsum.1]; simp [usernames]
      have hacc : accepted (pre ++ line :: post) =
          (accepted pre ++ [r]) ++ accepted post := by
        rw [accepted_append]
        simp [accepted, hscan]
      have hmono := first_seen_length_mono ((accepted pre ++ [r]).map (fun r => r.username))
        ((accepted post).map (fun r => r.username))
      rw [← List.map_append, ← hacc] at hmono
      rw [List.map_append, List.map_singleton, first_seen_snoc, if_neg hnin,
        List.length_append, List.length_singleton] at hmono
      have hroom : st.users.length < MAX_USERS := by omega
      refine ⟨st.users ++ [⟨r.username, 0, 0⟩], st.users.length, ?_, by simp, ?_⟩
      · simp only [find_or_add_user, hfind, hroom, if_true]
      · simp only [List.length_append, List.length_singleton]
        omega

/-- C17 at a log with two distinct usernames. -/
theorem C17_bounds_safety_witness :
    (first_seen ((records sample_case).map (fun r => r.username))).length ≤ MAX_USERS ∧
    run sample_case ≠ .error .tableOverflow :=
  ⟨by decide!, (C17_bounds_safety sample_case (by decide!)).1⟩

/-! ## Buffers and lines -/

theorem text_lines_eq_nil (s : List Char) : text_lines s = [] ↔ s = [] := by
  cases s with
  | nil => simp [text_lines]
  | cons c cs =>
    simp only [text_lines]
    split
    · simp
    · split <;> simp

/-- When the first line of a text has at most `k` characters, `fgets` with room
for `k` characters reads exactly that line. -/
theorem fgets_aux_text_line (k : Nat) (s l : List Char) (ls : List (List Char))
    (h : text_lines s = l :: ls) (hl : l.length ≤ k) :
    ∃ r, fgets_aux k s = (l, r) ∧ text_lines r = ls := by
  induction s generalizing k l ls with
  | nil => simp [text_lines] at h
  | cons c cs ih =>
    have hne : l ≠ [] := by
      intro hnil
      subst hnil
      simp only [text_lines] at h
      split at h
      · simp at h
      · split at h <;> simp at h
    cases k with
    | zero => exact absurd (List.length_eq_zero.mp (Nat.le_zero.mp hl)) hne
    | succ k =>
      simp only [text_lines] at h
      simp only [fgets_aux]
      split
      · rename_i hc
        rw [if_pos hc] at h
        simp only [List.cons.injEq] at h
        exact ⟨cs, by rw [h.1], h.2⟩
      · rename_i hc
        rw [if_neg hc] at h
        cases htl : text_lines cs with
        | nil =>
          rw [htl] at h
          simp only [List.cons.injEq] at h
          have hcs : cs = [] := (text_lines_eq_nil cs).mp htl
          subst hcs
          refine ⟨[], ?_, by rw [← h.2]; rfl⟩
          rw [← h.1]
          cases k <;> rfl
        | cons l1 ls1 =>
          rw [htl] at h
          simp only [List.cons.injEq] at h
          obtain ⟨hl1, hls1⟩ := h
          subst hl1
          simp only [List.length_cons] at hl
          obtain ⟨r, hr, hrl⟩ := ih k l1 ls1 htl (by omega)
          exact ⟨r, by rw [hr], by rw [hrl, hls1]⟩

theorem read_lines_text_lines (fuel : Nat) (s : List Char) (hfuel : s.length ≤ fuel)
    (hshort : ∀ l ∈ text_lines s, l.length ≤ 255) : read_lines fuel s = text_lines s := by
  induction fuel generalizing s with
  | zero =>
    have hs : s = [] := List.length_eq_zero.mp (Nat.le_zero.mp hfuel)
    subst hs
    rfl
  | succ fuel ih =>
    cases s with
    | nil => rfl
    | cons c cs =>
      cases htl : text_lines (c :: cs) with
      | nil => exact absurd ((text_lines_eq_nil _).mp htl) (by simp)
      | cons l ls =>
        obtain ⟨r, hr, hrl⟩ := fgets_aux_text_line 255 (c :: cs) l ls htl
          (hshort l (by rw [htl]; simp))
        have hlt : (fgets_aux 255 (c :: cs)).2.length < (c :: cs).length :=
          fgets_aux_rest_lt 254 c cs
        have hunf : read_lines (fuel + 1) (c :: cs) =
            (fgets_aux 255 (c :: cs)).1 :: read_lines fuel (fgets_aux 255 (c :: cs)).2 := rfl
        rw [hunf, hr]
        rw [hr] at hlt
        simp only at hlt ⊢
        rw [ih r (by simp only [List.length_cons] at hfuel hlt; omega)
          (by intro x hx; exact hshort x (by rw [htl, ← hrl]; simp [hx])), hrl]

/-- The lines of a text are its newlines, and one more when its end is not a
newline. -/
theorem text_lines_length (s : List Char) :
    (text_lines s).length = s.count '\n' + (if unterminated s then 1 else 0) := by
  induction s with
  | nil => rfl
  | cons c cs ih =>
    simp only [text_lines]
    split
    · rename_i hc
      subst hc
      cases cs with
      | nil => rfl
      | cons d ds =>
        simp only [List.length_cons, ih, unterminated, List.count_cons_self]
        omega
    · rename_i hc
      have hcount : (c :: cs).count '\n' = cs.count '\n' := by
        rw [List.count_cons_of_ne (Ne.symm hc)]
      cases cs with
      | nil => simp [text_lines, unterminated, hc, hcount]
      | cons d ds =>
        cases htl : text_lines (d :: ds) with
        | nil => exact absurd ((text_lines_eq_nil _).mp htl) (by simp)
        | cons l ls =>
          rw [htl] at ih
          simp only [List.length_cons] at ih ⊢
          rw [hcount, ih]
          rfl

theorem accepted_length_le (lines : List (List Char)) :
    (accepted lines).length ≤ lines.length := by
  induction lines with
  | nil => simp [accepted]
  | cons line rest ih =>
    simp only [accepted]
    split <;> simp only [List.length_cons] <;> omega

/-- C11 (amended). Every buffer that `fgets` fills yields at most one record:
for every input file on which the parse loop completes, Total Entries is at
most the number of buffers read; and when no line of the file is longer than
255 characters, its newline included, the buffers are the lines of the file,
so Total Entries is at most the number of lines, that is the number of
newlines, plus one when the file does not end with a newline. -/
theorem C11_entries_at_most_lines (file : List Char) (st : State) (h : run file = .ok st) :
    st.total_entries ≤ ((file_lines file).length : Int) ∧
    ((∀ l ∈ text_lines file, l.length ≤ MAX_LINE - 1) →
      file_lines file = text_lines file ∧
      st.total_entries ≤
        ((file.count '\n' + (if unterminated file then 1 else 0) : Nat) : Int)) := by
  have hn := (run_summarises file st h).2.2.1
  have hle := accepted_length_le (file_lines file)
  have hbuf : st.total_entries ≤ ((file_lines file).length : Int) := by
    rw [hn, records]
    exact_mod_cast hle
  refine ⟨hbuf, fun hshort => ?_⟩
  have heq : file_lines file = text_lines file :=
    read_lines_text_lines file.length file (le_refl _) hshort
  refine ⟨heq, ?_⟩
  rw [← text_lines_length, ← heq]
  exact hbuf

/-- C11 (amended) at the scenario: four short lines, three entries. -/
theorem C11_entries_at_most_lines_witness :
    run scenario = .ok ⟨[⟨"alice".toList, 2, 40⟩, ⟨"bob".toList, 1, 20⟩], 3, 60, 600⟩ ∧
    (∀ l ∈ text_lines scenario, l.length ≤ MAX_LINE - 1) ∧
    (3 : Int) ≤ ((scenario.count '\n' + (if unterminated scenario then 1 else 0) : Nat) : Int) :=
  ⟨by decide!, by decide!,
    ((C11_entries_at_most_lines scenario
      ⟨[⟨"alice".toList, 2, 40⟩, ⟨"bob".toList, 1, 20⟩], 3, 60, 600⟩ (by decide!)).2
        (by decide!)).2⟩

/-- C11 as stated fails: a file of one newline-terminated line of 267 characters
is read as two buffers and yields two entries, and a file whose only line has
no newline yields one entry with no newline-terminated line at all. -/
theorem C11_long_line_counterexample :
    long_line.count '\n' = 1 ∧ long_line.length = 267 ∧
    (file_lines long_line).length = 2 ∧
    run long_line =
      .ok ⟨[⟨"alice".toList, 1, 1⟩, ⟨"bob".toList, 1, 2⟩], 2, 3, 3⟩ ∧
    sample_unterminated.count '\n' = 0 ∧
    run sample_unterminated = .ok ⟨[⟨"bob".toList, 1, 1⟩], 1, 1, 1⟩ := by
  decide!

/-! ## The parent and its pipes -/

/-- C13 (the code when a pipe delivers nothing). On the scenario, in a run where
the CPU child does not reach its `write`, the parent's `read` leaves `avg_cpu`
as it was, here 12345, and the parent prints the report with that value as
Average CPU and returns 0; whatever the pipes deliver, the parent prints a
report and returns 0. -/
theorem C13_empty_pipe_report :
    main_env 2 (some scenario) false true (some 12345) none =
      .ok ⟨0, some ⟨3, some 12345, some 200,
        [⟨"alice".toList, 2, 40⟩, ⟨"bob".toList, 1, 20⟩]⟩⟩ ∧
    ∀ (st : State) (cpu_pipe mem_pipe : Option (Option ℚ)) (avg_cpu avg_mem : Option ℚ),
      (parent st cpu_pipe mem_pipe avg_cpu avg_mem).exit_code = 0 ∧
      (parent st cpu_pipe mem_pipe avg_cpu avg_mem).report ≠ none := by
  refine ⟨by decide!, ?_⟩
  intro st cpu_pipe mem_pipe avg_cpu avg_mem
  exact ⟨rfl, by simp [parent]⟩

/-- When both children write, the outcome does not depend on what `avg_cpu`
and `avg_mem` held before the reads: it is the outcome of `main`. -/
theorem main_env_both_write (argc : Nat) (file : Option (List Char)) (a m : Option ℚ) :
    main_env argc file true true a m = main argc file := by
  unfold main_env main
  split
  · rfl
  · split
    · rfl
    · split <;> rfl

/-- C14 (the code on one file in runs that differ). On the same bytes, the
scenario, a run in which both children write prints Average CPU 20, and two
runs in which the CPU child does not reach its `write` print the former
contents of `avg_cpu`, here 0 and 7: three different reports for one file. -/
theorem C14_runs_differ :
    main_env 2 (some scenario) true true none none =
      .ok ⟨0, some ⟨3, some 20, some 200,
        [⟨"alice".toList, 2, 40⟩, ⟨"bob".toList, 1, 20⟩]⟩⟩ ∧
    main_env 2 (some scenario) false true (some 0) none =
      .ok ⟨0, some ⟨3, some 0, some 200,
        [⟨"alice".toList, 2, 40⟩, ⟨"bob".toList, 1, 20⟩]⟩⟩ ∧
    main_env 2 (some scenario) false true (some 7) none =
      .ok ⟨0, some ⟨3, some 7, some 200,
        [⟨"alice".toList, 2, 40⟩, ⟨"bob".toList, 1, 20⟩]⟩⟩ ∧
    main_env 2 (some scenario) false true (some 0) none ≠
      main_env 2 (some scenario) false true (some 7) none := by
  decide!

end LogAnalyzer
